import Mathlib

/-!
A verification development for `stupid-bpe`.

The byte-pair-encoding trainer of `bpe.c` and the hash table of `chaos.h`
(`djb33_hash`, `chaos_table_append`) are embedded as Lean functions and the
properties of the specification are stated over them.

Conventions of the embedding.

* A C string is the list of its character codes, without the terminator.
* `int` values are `Int`, `size_t` and `uint32_t` values are `Nat`; the 32-bit
  wrap-around of the hash is explicit.  The range of `int` is not modelled: the
  training loop only ever holds ids between `0` and the merge counter.
* A dynamic array (`items`, `count`, `capacity`) is a list; `count` is its length.
* A loop whose trip count is not known in advance carries a fuel argument and
  answers `none` when the fuel runs out.
-/

namespace StupidBpe

/-! ## Data model -/

/-- A C string: its character codes, terminator excluded. -/
abbrev CStr := List Nat

/-- One byte of the input file or of the decoded output. -/
abbrev Byte := Fin 256

/-- The dynamic array `Tokens` of `bpe.c`. -/
abbrev Tokens := List Int

/-- The struct `Merge` of `bpe.c`. -/
structure Merge where
  left : Int
  right : Int
  token : Int
deriving DecidableEq, Repr, Inhabited

/-- The dynamic array `Merges` of `bpe.c`. -/
abbrev Merges := List Merge

/-- The struct `chaos_KV` of `chaos.h`: hash, string and frequency of one entry. -/
structure chaos_KV where
  key : Nat
  value : CStr
  freq : Nat
deriving DecidableEq, Repr, Inhabited

/-- The dynamic array `chaos_Bucket` of `chaos.h`. -/
abbrev chaos_Bucket := List chaos_KV

/-- The struct `chaos_Table` of `chaos.h`: the list of its buckets; the zeroed
table (`items == NULL`) is the empty list. -/
abbrev chaos_Table := List chaos_Bucket

/-! ## Formatting and parsing of decimal numbers -/

/-- Decimal digits of `n`, most significant first, pushed in front of `acc`. -/
def digits_aux : Nat → Nat → CStr → CStr
  | 0, _, acc => acc
  | fuel + 1, n, acc =>
    if n < 10 then (48 + n) :: acc
    else digits_aux fuel (n / 10) ((48 + n % 10) :: acc)

/-- The decimal numeral of a natural number. -/
def decimal (n : Nat) : CStr := digits_aux (n + 1) n []

/-- Left padding with the character `0` up to width `w`. -/
def zero_pad (w : Nat) (s : CStr) : CStr := List.replicate (w - s.length) 48 ++ s

/-- The conversion `%03d` of `printf`: at least three characters, the sign
counted in the width and the zeros placed after it. -/
def fmt_03d (n : Int) : CStr :=
  if n < 0 then 45 :: zero_pad 2 (decimal n.natAbs) else zero_pad 3 (decimal n.toNat)

/-- The key of a pair: `temp_sprintf("%03d%03d", a, b)`. -/
def pair_key (a b : Int) : CStr := fmt_03d a ++ fmt_03d b

/-- The characters `isspace` accepts. -/
def is_space (c : Nat) : Bool := c == 32 || (9 ≤ c && c ≤ 13)

/-- The digit loop of `atoi`. -/
def atoi_digits : CStr → Int → Int
  | [], acc => acc
  | c :: s, acc =>
    if 48 ≤ c ∧ c ≤ 57 then atoi_digits s (acc * 10 + ((c : Int) - 48)) else acc

/-- The function `atoi` of the C library: leading white space, an optional sign,
then digits up to the first other character. -/
def atoi : CStr → Int
  | [] => 0
  | c :: s =>
    if is_space c then atoi s
    else if c = 45 then - atoi_digits s 0
    else if c = 43 then atoi_digits s 0
    else atoi_digits (c :: s) 0

/-! ## The hash table of `chaos.h` -/

/-- The function `djb33_hash`: `h += h << 5; h ^= *s++` over `len` characters,
in 32-bit unsigned arithmetic. -/
def djb33_hash (s : CStr) (len : Nat) : Nat :=
  (s.take len).foldl (fun h c => (((h + (h * 32) % 2 ^ 32) % 2 ^ 32) ^^^ c) % 2 ^ 32) 5381

/-- The macro `chaos_hash`, that is `chaos_hash_generic` with `djb33_hash`. -/
def chaos_hash (value : CStr) (len : Nat) : Nat := djb33_hash value len

/-- The search loop of `chaos_table_append`: the first entry of the bucket with
this hash and this string. -/
def find_kv (key : Nat) (value : CStr) (bucket : chaos_Bucket) : Option chaos_KV :=
  bucket.find? (fun kv => decide (kv.key = key ∧ kv.value = value))

/-- The statement `found->freq++` on the entry the search loop stopped at. -/
def bump_kv (key : Nat) (value : CStr) : chaos_Bucket → chaos_Bucket
  | [] => []
  | kv :: rest =>
    if kv.key = key ∧ kv.value = value then { kv with freq := kv.freq + 1 } :: rest
    else kv :: bump_kv key value rest

/-- The function `chaos_table_append`. -/
def chaos_table_append (t : chaos_Table) (value : CStr) (len : Nat) : chaos_Table :=
  let t := if t.isEmpty then List.replicate 16 [] else t
  let key := chaos_hash value len
  let i := key % t.length
  let bucket := t.getD i []
  match find_kv key value bucket with
  | some _ => t.set i (bump_kv key value bucket)
  | none => t.set i (bucket ++ [{ key := key, value := value, freq := 1 }])

/-- The frequency the table holds for a string: the search of
`chaos_table_append` in the bucket `chaos_table_index` names. -/
def table_freq (t : chaos_Table) (value : CStr) (len : Nat) : Option Nat :=
  if t.isEmpty then none
  else
    let key := chaos_hash value len
    (find_kv key value (t.getD (key % t.length) [])).map (fun kv => kv.freq)

/-! ## The training loop of `main` -/

/-- The counting loop of `main` (lines 76-80): one `table_append` for every
index `i` with `i + 1 < tokens.count`. -/
def count_pairs (tokens : Tokens) : chaos_Table :=
  (List.range (tokens.length - 1)).foldl
    (fun tb i => chaos_table_append tb (pair_key (tokens.getD i 0) (tokens.getD (i + 1) 0)) 6) []

/-- One test of the selection loop (line 86). -/
def pick (best : Option chaos_KV) (kv : chaos_KV) : Option chaos_KV :=
  match best with
  | none => some kv
  | some cur => if kv.freq > cur.freq then some kv else some cur

/-- The selection loop of `main` (lines 82-90): buckets by index, entries of a
bucket by position. -/
def select_best (tb : chaos_Table) : Option chaos_KV :=
  tb.foldl (fun best b => b.foldl pick best) none

/-- The replace loop of `main` (lines 105-115), with the index `i` and the
array `next` as state. -/
def replace_loop (tokens : Tokens) (A B N : Int) : Nat → Nat → Tokens → Tokens
  | 0, _, next => next
  | fuel + 1, i, next =>
    if i < tokens.length then
      if i + 1 < tokens.length ∧ tokens.getD i 0 = A ∧ tokens.getD (i + 1) 0 = B then
        replace_loop tokens A B N fuel (i + 2) (next ++ [N])
      else
        replace_loop tokens A B N fuel (i + 1) (next ++ [tokens.getD i 0])
    else next

/-- The replace loop run from index `0`; the index grows at every turn, so
`tokens.count` turns are enough. -/
def replace_pair (tokens : Tokens) (A B N : Int) : Tokens :=
  replace_loop tokens A B N tokens.length 0 []

/-- The variables of `main` that live across iterations. -/
structure State where
  tokens : Tokens
  merges : Merges
  next_token : Int
deriving DecidableEq, Repr

/-- The state before the first iteration (lines 65-71). -/
def init (sb : List Byte) : State :=
  { tokens := sb.map (fun b => (b.val : Int)), merges := [], next_token := 256 }

/-- One iteration of the loop `for (;;)` of `main`: `none` is the `break`. -/
def step (s : State) : Option State :=
  match select_best (count_pairs s.tokens) with
  | none => none
  | some best =>
    if best.freq ≤ 1 then none
    else
      let A := atoi (best.value.take 3)
      let B := atoi ((best.value.drop 3).take 3)
      some { tokens := replace_pair s.tokens A B s.next_token,
             merges := s.merges ++ [{ left := A, right := B, token := s.next_token }],
             next_token := s.next_token + 1 }

/-- The state after `n` iterations that did not break, if there are that many. -/
def iterate : Nat → State → Option State
  | 0, s => some s
  | n + 1, s => (step s).bind (iterate n)

/-- The loop `for (;;)`: the state at the `break`, if it comes within `fuel`
iterations. -/
def train : Nat → State → Option State
  | 0, _ => none
  | fuel + 1, s =>
    match step s with
    | none => some s
    | some s' => train fuel s'

/-! ## The decoder -/

/-- The conversion `(char)token` seen as a byte. -/
def to_char (token : Int) : Byte := ⟨(token % 256).toNat, by omega⟩

/-- The loop of `decode_token` (line 46): indices `i - 1` downwards. -/
def find_merge (merges : Merges) (token : Int) : Nat → Option Merge
  | 0 => none
  | i + 1 =>
    if (merges.getD i default).token = token then some (merges.getD i default)
    else find_merge merges token i

/-- The function `decode_token`; the fuel bounds the depth of the recursion. -/
def decode_token : Nat → Int → Merges → List Byte → Option (List Byte)
  | 0, _, _, _ => none
  | fuel + 1, token, merges, out =>
    if token < 256 then some (out ++ [to_char token])
    else
      match find_merge merges token merges.length with
      | some m =>
        (decode_token fuel m.left merges out).bind
          (fun out1 => decode_token fuel m.right merges out1)
      | none => some out

/-- The decoding loop of `main` (lines 135-137). -/
def decode_all (fuel : Nat) (merges : Merges) : Tokens → List Byte → Option (List Byte)
  | [], out => some out
  | t :: rest, out => (decode_token fuel t merges out).bind (decode_all fuel merges rest)

/-- What `main` prints. -/
structure Output where
  token_count : Nat
  vocab_size : Int
  merge_count : Nat
  decoded : List Byte
deriving DecidableEq, Repr

/-- The function `main` from line 65 on, given the bytes of the file; the fuel
bounds the iterations of the training loop and the depth of the decoder. -/
def main (fuel : Nat) (sb : List Byte) : Option Output :=
  (train fuel (init sb)).bind (fun s =>
    (decode_all fuel s.merges s.tokens []).map (fun decoded =>
      { token_count := s.tokens.length, vocab_size := s.next_token,
        merge_count := s.merges.length, decoded := decoded }))

/-! ## Notions used in the statements and proofs -/

/-- The strings the counting loop hands to `table_append`, in order. -/
def keys_of (tokens : Tokens) : List CStr :=
  (List.range (tokens.length - 1)).map
    (fun i => pair_key (tokens.getD i 0) (tokens.getD (i + 1) 0))

/-- The table after a run of `table_append` calls with `len = 6` on a zeroed table. -/
def table_of (ks : List CStr) : chaos_Table :=
  ks.foldl (fun tb k => chaos_table_append tb k 6) []

/-- What `found->freq++` does to a bucket whose strings are pairwise different. -/
def bump_value (value : CStr) (bucket : chaos_Bucket) : chaos_Bucket :=
  bucket.map (fun kv => if kv.value = value then { kv with freq := kv.freq + 1 } else kv)

/-- The invariant of a table built from the strings `ks`: sixteen buckets once
something was appended, every entry in the bucket of its hash, one entry per
string, and the frequency of an entry is the number of times its string was
appended. -/
structure TableInv (ks : List CStr) (t : chaos_Table) : Prop where
  empty : ks = [] → t = []
  size : ks ≠ [] → t.length = 16
  entry : ∀ i, ∀ e ∈ t.getD i [],
    e.key = chaos_hash e.value 6 ∧ e.key % 16 = i ∧ e.freq = ks.count e.value ∧ 0 < e.freq
  nodup : ∀ i, ((t.getD i []).map (fun e => e.value)).Nodup
  present : ∀ k ∈ ks, ∃ e ∈ t.getD (chaos_hash k 6 % 16) [], e.value = k

/-- The adjacent pairs of a sequence, left to right. -/
def pairs_of (l : Tokens) : List (Int × Int) := l.zip l.tail

/-- The greedy replacement as the specification words it: scan left to right;
where the current token and the next one are `(A, B)`, emit `N` and advance by
two positions, otherwise emit the current token and advance by one. -/
def greedy_replace (A B N : Int) : Tokens → Tokens
  | a :: b :: rest =>
    if a = A ∧ b = B then N :: greedy_replace A B N rest
    else a :: greedy_replace A B N (b :: rest)
  | [a] => [a]
  | [] => []

/-- The number of indices `i` of `[0, len - 2]` with `seq[i] = x` and
`seq[i + 1] = y`. -/
def pair_occurrences (tokens : Tokens) (x y : Int) : Nat :=
  ((List.range (tokens.length - 1)).filter
    (fun i => decide (tokens.getD i 0 = x ∧ tokens.getD (i + 1) 0 = y))).length

/-- The invariant of the training state: the merge counter is `256` plus the
number of records, the `k`-th record produced the id `256 + k` from two ids of
`[0, 256 + k)`, and every token of the sequence lies in `[0, next_token)`. -/
structure StateInv (s : State) : Prop where
  next : s.next_token = 256 + s.merges.length
  record : ∀ k (h : k < s.merges.length),
    s.merges[k].token = 256 + k ∧
    (0 ≤ s.merges[k].left ∧ s.merges[k].left < 256 + k) ∧
    (0 ≤ s.merges[k].right ∧ s.merges[k].right < 256 + k)
  tokens : ∀ t ∈ s.tokens, 0 ≤ t ∧ t < s.next_token

/-! ## Two inputs: `ababab` and a file of 1494 bytes -/

/-- The bytes of `ababab`. -/
def ababab : List Byte := [97, 98, 97, 98, 97, 98]

/-- The state of `main` after the two merges `ababab` allows. -/
def ababab_final : State :=
  { tokens := [257, 256],
    merges := [{ left := 97, right := 98, token := 256 },
               { left := 256, right := 256, token := 257 }],
    next_token := 258 }

/-- The bytes of `abcabcxyxy`: the pairs `(a, b)`, `(b, c)` and `(x, y)` occur
twice each, every other pair once. -/
def abcabcxyxy : List Byte := [97, 98, 99, 97, 98, 99, 120, 121, 120, 121]

/-- The byte at index `i` of the first half of the long input: the byte `255`,
then a walk over the bytes below `255` in steps of 1, then of 2, then of 4. -/
def bug_half_at (i : Nat) : Nat :=
  if i = 0 then 255 else (2 ^ ((i - 1) / 255) * ((i - 1) % 255)) % 255

/-- The first 747 bytes of the long input. -/
def bug_half : List Byte :=
  (List.range 747).map (fun i => ⟨bug_half_at i % 256, Nat.mod_lt _ (by decide)⟩)

/-- A file of 1494 bytes: the same 747 bytes twice. -/
def bug_input : List Byte := bug_half ++ bug_half

/-- The tokens of one half of the long input. -/
def bug_tokens : Tokens := bug_half.map (fun b => (b.val : Int))

/-- A number that grows along the adjacent pairs of `bug_tokens`. -/
def pair_code (p : Int × Int) : Nat :=
  if p.1 = 255 then 0
  else 255 * (((p.2 - p.1) % 255).toNat / 2) +
    (p.1.toNat * (256 / ((p.2 - p.1) % 255).toNat)) % 255 + 1

/-- Strictly increasing lists of numbers. -/
def increasing : List Nat → Bool
  | a :: b :: rest => decide (a < b) && increasing (b :: rest)
  | _ => true

/-- A state whose sequence is twice the same word `w`, with pairwise different
adjacent pairs in `w`, the first token of `w` nowhere else in `w`, and as many
merges behind it as `w` is shorter than 747. -/
structure Doubled (s : State) (w : Tokens) : Prop where
  tokens : s.tokens = w ++ w
  nodup : (pairs_of w).Nodup
  first : ∃ f, w.head? = some f ∧ w.count f = 1
  inv : StateInv s
  size : w.length + s.merges.length = 747

/-- A state of four tokens `p q p q` with an id from 1000 on. -/
def Stuck (s : State) : Prop :=
  ∃ p q, s.tokens = [p, q, p, q] ∧ 0 ≤ p ∧ 0 ≤ q ∧ (1000 ≤ p ∨ 1000 ≤ q)

/-! ## The forward decoder, the order of insertion, and the program around `main` -/

/-- The position of the first occurrence of a string in a list of strings (the
length of the list when there is none). -/
def first_index (k : CStr) : List CStr → Nat
  | [] => 0
  | x :: rest => if x = k then 0 else first_index k rest + 1

/-- The decoder as the specification words it, with the lookup that scans the
history from the first record to the last. -/
def decode_forward : Nat → Int → Merges → List Byte → Option (List Byte)
  | 0, _, _, _ => none
  | fuel + 1, token, merges, out =>
    if token < 256 then some (out ++ [to_char token])
    else
      match merges.find? (fun m => decide (m.token = token)) with
      | some m =>
        (decode_forward fuel m.left merges out).bind
          (fun out1 => decode_forward fuel m.right merges out1)
      | none => some out

/-- What the program writes to the error stream. -/
inductive Diagnostic where
  | usage
  | cannot_open
deriving DecidableEq, Repr

/-- The function `chaos_read_file` as far as `fopen` decides it: `file` is the
content of the named file, `none` when it cannot be opened.  A failure appends
nothing to the string builder, writes a diagnostic and returns `false`.  (The
failures of `fseek` and `fclose` are not modelled.) -/
def chaos_read_file (file : Option (List Byte)) (sb : List Byte) :
    Bool × List Byte × List Diagnostic :=
  match file with
  | none => (false, sb, [Diagnostic.cannot_open])
  | some bytes => (true, sb ++ bytes, [])

/-- A finished run of the program: exit status, error stream, standard output. -/
structure Run where
  exit_status : Int
  diagnostics : List Diagnostic
  printed : Option Output
deriving DecidableEq, Repr

/-- The whole function `main`: the argument check (lines 57-60), the call of
`read_file` whose result is not looked at (line 63), then training, reporting
and decoding; falling off the end of `main` is exit status `0`. -/
def program (argc : Nat) (file : Option (List Byte)) (fuel : Nat) : Option Run :=
  if argc ≠ 2 then some { exit_status := 1, diagnostics := [Diagnostic.usage], printed := none }
  else
    let r := chaos_read_file file []
    (main fuel r.2.1).map
      (fun out => { exit_status := 0, diagnostics := r.2.2, printed := some out })

/-! ## Lemmas on formatting and parsing -/

theorem digits_aux_length (fuel n : Nat) (acc : CStr) :
    acc.length + min fuel 1 ≤ (digits_aux fuel n acc).length := by
  induction fuel generalizing n acc with
  | zero => simp [digits_aux]
  | succ f ih =>
    unfold digits_aux
    split
    · simp
    · have := ih (n / 10) ((48 + n % 10) :: acc)
      simp at this ⊢
      omega

theorem digits_aux_digit (fuel n : Nat) (acc : CStr)
    (h : ∀ c ∈ acc, 48 ≤ c ∧ c ≤ 57) : ∀ c ∈ digits_aux fuel n acc, 48 ≤ c ∧ c ≤ 57 := by
  induction fuel generalizing n acc with
  | zero => simpa [digits_aux] using h
  | succ f ih =>
    unfold digits_aux
    split
    · intro c hc
      rcases List.mem_cons.1 hc with rfl | hc
      · omega
      · exact h c hc
    · apply ih
      intro c hc
      rcases List.mem_cons.1 hc with rfl | hc
      · omega
      · exact h c hc

theorem decimal_small (n : Nat) (h : n < 1000) :
    zero_pad 3 (decimal n) = [48 + n / 100, 48 + n / 10 % 10, 48 + n % 10] := by
  revert n
  decide!

/-- Every numeral has at least one character. -/
theorem decimal_length_pos (n : Nat) : 1 ≤ (decimal n).length := by
  have := digits_aux_length (n + 1) n []
  simpa [decimal] using this

/-- A number from 1000 on needs at least four digits. -/
theorem decimal_length_large (n : Nat) (h : 1000 ≤ n) : 4 ≤ (decimal n).length := by
  obtain ⟨k, rfl⟩ : ∃ k, n = k + 3 := ⟨n - 3, by omega⟩
  have h1 : ¬ (k + 3 < 10) := by omega
  have h2 : ¬ ((k + 3) / 10 < 10) := by omega
  have h3 : ¬ ((k + 3) / 10 / 10 < 10) := by omega
  have := digits_aux_length (k + 1) ((k + 3) / 10 / 10 / 10)
    [48 + (k + 3) / 10 / 10 % 10, 48 + (k + 3) / 10 % 10, 48 + (k + 3) % 10]
  have e : decimal (k + 3) = digits_aux (k + 1) ((k + 3) / 10 / 10 / 10)
      [48 + (k + 3) / 10 / 10 % 10, 48 + (k + 3) / 10 % 10, 48 + (k + 3) % 10] := by
    show digits_aux (k + 3 + 1) (k + 3) [] = _
    rw [digits_aux, if_neg h1, digits_aux, if_neg h2, digits_aux, if_neg h3]
  rw [e]
  simp at this
  omega

theorem zero_pad_length (w : Nat) (s : CStr) : (zero_pad w s).length = max w s.length := by
  simp [zero_pad]; omega

theorem zero_pad_digit (w : Nat) (s : CStr) (h : ∀ c ∈ s, 48 ≤ c ∧ c ≤ 57) :
    ∀ c ∈ zero_pad w s, 48 ≤ c ∧ c ≤ 57 := by
  intro c hc
  rcases List.mem_append.1 hc with hc | hc
  · have := List.eq_of_mem_replicate hc
    omega
  · exact h c hc

theorem fmt_03d_length (n : Int) : 3 ≤ (fmt_03d n).length := by
  unfold fmt_03d
  split <;> simp [zero_pad_length]

theorem fmt_03d_digit (n : Int) (h : 0 ≤ n) : ∀ c ∈ fmt_03d n, 48 ≤ c ∧ c ≤ 57 := by
  have hn : ¬ n < 0 := by omega
  simp only [fmt_03d, hn, if_false]
  exact zero_pad_digit _ _ (digits_aux_digit _ _ _ (by simp))

theorem fmt_03d_small (n : Int) (h0 : 0 ≤ n) (h : n ≤ 999) :
    fmt_03d n = [48 + n.toNat / 100, 48 + n.toNat / 10 % 10, 48 + n.toNat % 10] := by
  have hn : ¬ n < 0 := by omega
  simp only [fmt_03d, hn, if_false]
  exact decimal_small _ (by omega)

theorem fmt_03d_head_neg (n : Int) (h : n < 0) : (fmt_03d n).head? = some 45 := by
  simp [fmt_03d, h]

theorem fmt_03d_length_large (n : Int) (h : 1000 ≤ n) : 4 ≤ (fmt_03d n).length := by
  have hn : ¬ n < 0 := by omega
  simp only [fmt_03d, hn, if_false, zero_pad_length]
  have := decimal_length_large n.toNat (by omega)
  omega

/-- The digit loop of `atoi` on a string of digits stays below the next power of ten. -/
theorem atoi_digits_bound (s : CStr) (acc : Int) (hs : ∀ c ∈ s, 48 ≤ c ∧ c ≤ 57) (h0 : 0 ≤ acc) :
    0 ≤ atoi_digits s acc ∧ atoi_digits s acc < (acc + 1) * 10 ^ s.length := by
  induction s generalizing acc with
  | nil => simp [atoi_digits]; omega
  | cons c s ih =>
    have hc := hs c (List.mem_cons_self _ _)
    have ih' := ih (acc * 10 + ((c : Int) - 48)) (fun d hd => hs d (List.mem_cons_of_mem _ hd))
      (by omega)
    simp only [atoi_digits, hc, and_self, if_true, List.length_cons, pow_succ]
    refine ⟨ih'.1, lt_of_lt_of_le ih'.2 ?_⟩
    have hp : (0 : Int) < 10 ^ s.length := by positivity
    have : acc * 10 + ((c : Int) - 48) + 1 ≤ (acc + 1) * 10 := by omega
    calc (acc * 10 + ((c : Int) - 48) + 1) * 10 ^ s.length
        ≤ ((acc + 1) * 10) * 10 ^ s.length := by
          exact mul_le_mul_of_nonneg_right this (le_of_lt hp)
      _ = (acc + 1) * (10 ^ s.length * 10) := by ring

theorem atoi_of_digits (s : CStr) (hs : ∀ c ∈ s, 48 ≤ c ∧ c ≤ 57) : atoi s = atoi_digits s 0 := by
  cases s with
  | nil => simp [atoi, atoi_digits]
  | cons c s =>
    have hc := hs c (List.mem_cons_self _ _)
    have h1 : is_space c = false := by
      simp [is_space]; omega
    have h2 : c ≠ 45 := by omega
    have h3 : c ≠ 43 := by omega
    simp [atoi, h1, h2, h3]

/-- The value `atoi` reads from at most three digits lies in `[0, 999]`. -/
theorem atoi_three_bound (s : CStr) (hs : ∀ c ∈ s, 48 ≤ c ∧ c ≤ 57) (hl : s.length ≤ 3) :
    0 ≤ atoi s ∧ atoi s ≤ 999 := by
  rw [atoi_of_digits s hs]
  have h := atoi_digits_bound s 0 hs (le_refl _)
  have hp : (10 : Int) ^ s.length ≤ 10 ^ 3 := pow_le_pow_right₀ (by norm_num) hl
  constructor
  · exact h.1
  · have := h.2
    norm_num at this hp
    omega

theorem atoi_three (a b c : Nat) (ha : a ≤ 9) (hb : b ≤ 9) (hc : c ≤ 9) :
    atoi [48 + a, 48 + b, 48 + c] = 100 * a + 10 * b + c := by
  rw [atoi_of_digits _ (by intro d hd; simp at hd; omega)]
  have h1 : 48 + a ≤ 57 := by omega
  have h2 : 48 + b ≤ 57 := by omega
  have h3 : 48 + c ≤ 57 := by omega
  simp [atoi_digits, h1, h2, h3]
  ring

theorem pair_key_digit (a b : Int) (ha : 0 ≤ a) (hb : 0 ≤ b) :
    ∀ c ∈ pair_key a b, 48 ≤ c ∧ c ≤ 57 := by
  intro c hc
  rcases List.mem_append.1 hc with hc | hc
  · exact fmt_03d_digit a ha c hc
  · exact fmt_03d_digit b hb c hc

/-- Whatever the ids, the two numbers read back from a key lie in `[0, 999]`. -/
theorem parse_bound (a b : Int) (ha : 0 ≤ a) (hb : 0 ≤ b) :
    (0 ≤ atoi ((pair_key a b).take 3) ∧ atoi ((pair_key a b).take 3) ≤ 999) ∧
    (0 ≤ atoi (((pair_key a b).drop 3).take 3) ∧ atoi (((pair_key a b).drop 3).take 3) ≤ 999) := by
  have hd := pair_key_digit a b ha hb
  constructor
  · apply atoi_three_bound
    · intro c hc; exact hd c (List.mem_of_mem_take hc)
    · simp
  · apply atoi_three_bound
    · intro c hc; exact hd c (List.mem_of_mem_drop (List.mem_of_mem_take hc))
    · simp

theorem pair_key_small (a b : Int) (ha0 : 0 ≤ a) (ha : a ≤ 999) (hb0 : 0 ≤ b) (hb : b ≤ 999) :
    pair_key a b = [48 + a.toNat / 100, 48 + a.toNat / 10 % 10, 48 + a.toNat % 10,
      48 + b.toNat / 100, 48 + b.toNat / 10 % 10, 48 + b.toNat % 10] := by
  simp [pair_key, fmt_03d_small a ha0 ha, fmt_03d_small b hb0 hb]

/-- Reading a key of two ids of `[0, 999]` gives the two ids back. -/
theorem parse_small (a b : Int) (ha0 : 0 ≤ a) (ha : a ≤ 999) (hb0 : 0 ≤ b) (hb : b ≤ 999) :
    atoi ((pair_key a b).take 3) = a ∧ atoi (((pair_key a b).drop 3).take 3) = b := by
  rw [pair_key_small a b ha0 ha hb0 hb]
  simp only [List.take, List.drop]
  rw [atoi_three _ _ _ (by omega) (by omega) (by omega),
    atoi_three _ _ _ (by omega) (by omega) (by omega)]
  constructor <;> omega

theorem fmt_03d_inj_small (a x : Int) (hx0 : 0 ≤ x) (hx : x ≤ 999) (h : fmt_03d a = fmt_03d x) :
    a = x := by
  have hxs := fmt_03d_small x hx0 hx
  by_cases ha0 : a < 0
  · have := fmt_03d_head_neg a ha0
    rw [h, hxs] at this
    simp at this
    omega
  · by_cases ha : 1000 ≤ a
    · have := fmt_03d_length_large a ha
      rw [h, hxs] at this
      simp at this
    · have has := fmt_03d_small a (by omega) (by omega)
      rw [has, hxs] at h
      simp at h
      omega

/-- A key of two ids of `[0, 999]` is the key of no other pair of integers. -/
theorem pair_key_inj_small (a b x y : Int) (hx0 : 0 ≤ x) (hx : x ≤ 999) (hy0 : 0 ≤ y) (hy : y ≤ 999)
    (h : pair_key a b = pair_key x y) : a = x ∧ b = y := by
  have hxs := fmt_03d_small x hx0 hx
  have hys := fmt_03d_small y hy0 hy
  have hla := fmt_03d_length a
  have hlb := fmt_03d_length b
  have hl : (fmt_03d a).length = 3 := by
    have := congrArg List.length h
    simp [pair_key, hxs, hys] at this
    omega
  have hl' : (fmt_03d a).length = (fmt_03d x).length := by rw [hl, hxs]; rfl
  have := List.append_inj h hl'
  exact ⟨fmt_03d_inj_small a x hx0 hx this.1, fmt_03d_inj_small b y hy0 hy this.2⟩

/-! ## Lemmas on the hash table -/

theorem count_pairs_eq (tokens : Tokens) : count_pairs tokens = table_of (keys_of tokens) := by
  simp [count_pairs, table_of, keys_of, List.foldl_map]

theorem table_of_snoc (ks : List CStr) (k : CStr) :
    table_of (ks ++ [k]) = chaos_table_append (table_of ks) k 6 := by
  simp [table_of, List.foldl_append]

theorem getD_set_bucket (t : chaos_Table) (i j : Nat) (b : chaos_Bucket) (h : i < t.length) :
    (t.set i b).getD j [] = if j = i then b else t.getD j [] := by
  simp only [List.getD_eq_getElem?_getD, List.getElem?_set]
  by_cases hij : i = j
  · subst hij; simp [h]
  · have : ¬ j = i := fun e => hij e.symm
    simp [hij, this]

theorem getD_replicate_nil (n j : Nat) :
    (List.replicate n ([] : chaos_Bucket)).getD j [] = [] := by
  simp only [List.getD_eq_getElem?_getD, List.getElem?_replicate]
  split <;> rfl

/-- In a bucket of a well-formed table the search finds the entry of a string
through the string alone. -/
theorem find_kv_eq_none (k : CStr) (b : chaos_Bucket)
    (hk : ∀ e ∈ b, e.key = chaos_hash e.value 6) :
    find_kv (chaos_hash k 6) k b = none ↔ ∀ e ∈ b, e.value ≠ k := by
  simp only [find_kv, List.find?_eq_none, decide_eq_true_eq, not_and]
  constructor
  · intro h e he hv
    exact h e he (by rw [hk e he, hv]) hv
  · intro h e he _ hv
    exact h e he hv

theorem bump_kv_eq (k : CStr) (b : chaos_Bucket)
    (hk : ∀ e ∈ b, e.key = chaos_hash e.value 6)
    (hn : (b.map (fun e => e.value)).Nodup) :
    bump_kv (chaos_hash k 6) k b = bump_value k b := by
  induction b with
  | nil => rfl
  | cons e rest ih =>
    have hk' : ∀ e ∈ rest, e.key = chaos_hash e.value 6 :=
      fun x hx => hk x (List.mem_cons_of_mem _ hx)
    simp only [List.map_cons, List.nodup_cons] at hn
    by_cases hv : e.value = k
    · have hke : e.key = chaos_hash k 6 := by rw [hk e (List.mem_cons_self _ _), hv]
      have hrest : bump_value k rest = rest := by
        unfold bump_value
        conv_rhs => rw [← List.map_id rest]
        apply List.map_congr_left
        intro x hx
        have : x.value ≠ k := by
          intro hxk
          apply hn.1
          rw [hv, ← hxk]
          exact List.mem_map_of_mem _ hx
        simp [this]
      rw [bump_kv, if_pos ⟨hke, hv⟩]
      have : bump_value k (e :: rest) = { e with freq := e.freq + 1 } :: bump_value k rest := by
        simp [bump_value, hv]
      rw [this, hrest]
    · have : ¬ (e.key = chaos_hash k 6 ∧ e.value = k) := fun h => hv h.2
      simp only [bump_kv, this, if_false]
      rw [ih hk' hn.2]
      simp [bump_value, hv]

theorem find_kv_some_value (key : Nat) (k : CStr) (b : chaos_Bucket) (e : chaos_KV)
    (h : find_kv key k b = some e) : e ∈ b ∧ e.key = key ∧ e.value = k := by
  have h1 := List.mem_of_find?_eq_some h
  have h2 := List.find?_some h
  simp at h2
  exact ⟨h1, h2.1, h2.2⟩

/-- With one entry per string, the search returns that entry. -/
theorem find_kv_of_mem (b : chaos_Bucket) (e : chaos_KV) (he : e ∈ b)
    (hk : ∀ e ∈ b, e.key = chaos_hash e.value 6)
    (hn : (b.map (fun e => e.value)).Nodup) :
    find_kv (chaos_hash e.value 6) e.value b = some e := by
  induction b with
  | nil => simp at he
  | cons x rest ih =>
    simp only [List.map_cons, List.nodup_cons] at hn
    rcases List.mem_cons.1 he with rfl | he'
    · have := hk e (List.mem_cons_self _ _)
      simp [find_kv, List.find?_cons, this]
    · have hx : x.value ≠ e.value := by
        intro hxe
        apply hn.1
        rw [hxe]
        exact List.mem_map_of_mem _ he'
      have : ¬ (x.key = chaos_hash e.value 6 ∧ x.value = e.value) := fun h => hx h.2
      have ih' := ih he' (fun y hy => hk y (List.mem_cons_of_mem _ hy)) hn.2
      unfold find_kv at ih' ⊢
      rw [List.find?_cons_of_neg _ (by simpa using this)]
      exact ih'

theorem table_append_nil (k : CStr) (len : Nat) :
    chaos_table_append [] k len = chaos_table_append (List.replicate 16 []) k len := by
  simp [chaos_table_append]

/-- One `table_append` on sixteen well-formed buckets. -/
theorem table_append_inv (ks : List CStr) (t : chaos_Table) (k : CStr)
    (hlen : t.length = 16)
    (hentry : ∀ i, ∀ e ∈ t.getD i [],
      e.key = chaos_hash e.value 6 ∧ e.key % 16 = i ∧ e.freq = ks.count e.value ∧ 0 < e.freq)
    (hnodup : ∀ i, ((t.getD i []).map (fun e => e.value)).Nodup)
    (hpresent : ∀ k ∈ ks, ∃ e ∈ t.getD (chaos_hash k 6 % 16) [], e.value = k) :
    TableInv (ks ++ [k]) (chaos_table_append t k 6) := by
  have hne : t.isEmpty = false := by
    cases t with
    | nil => simp at hlen
    | cons _ _ => rfl
  have hidx : chaos_hash k 6 % 16 < t.length := by rw [hlen]; exact Nat.mod_lt _ (by norm_num)
  have hbk : ∀ e ∈ t.getD (chaos_hash k 6 % 16) [], e.key = chaos_hash e.value 6 :=
    fun e he => (hentry _ e he).1
  -- the new bucket
  obtain ⟨nb, hnb, hP1, hP2, hP3, hP4⟩ : ∃ nb : chaos_Bucket,
      chaos_table_append t k 6 = t.set (chaos_hash k 6 % 16) nb ∧
      (∀ e ∈ nb, e.key = chaos_hash e.value 6 ∧ e.key % 16 = chaos_hash k 6 % 16 ∧
        e.freq = (ks ++ [k]).count e.value ∧ 0 < e.freq) ∧
      (nb.map (fun e => e.value)).Nodup ∧
      (∃ e ∈ nb, e.value = k) ∧
      (∀ e ∈ t.getD (chaos_hash k 6 % 16) [], ∃ e' ∈ nb, e'.value = e.value) := by
    cases hf : find_kv (chaos_hash k 6) k (t.getD (chaos_hash k 6 % 16) []) with
    | none =>
      refine ⟨t.getD (chaos_hash k 6 % 16) [] ++ [{ key := chaos_hash k 6, value := k, freq := 1 }],
        ?_, ?_, ?_, ?_, ?_⟩
      · rw [chaos_table_append]
        simp only [hne, Bool.false_eq_true, if_false, hlen, hf]
      · have hnone := (find_kv_eq_none k _ hbk).1 hf
        have hk0 : ks.count k = 0 := by
          rw [List.count_eq_zero]
          intro hk
          obtain ⟨e, he, hv⟩ := hpresent k hk
          exact hnone e he hv
        intro e he
        rcases List.mem_append.1 he with he | he
        · have h := hentry _ e he
          have hv : e.value ≠ k := hnone e he
          refine ⟨h.1, h.2.1, ?_, h.2.2.2⟩
          rw [List.count_append, List.count_singleton, h.2.2.1]
          have : (k == e.value) = false := by simpa using fun h => hv h.symm
          simp [this]
        · simp at he
          subst he
          simp [hk0]
      · have hnone := (find_kv_eq_none k _ hbk).1 hf
        rw [List.map_append, List.nodup_append]
        refine ⟨hnodup _, by simp, ?_⟩
        intro v hv hv'
        simp at hv'
        subst hv'
        obtain ⟨e, he, hev⟩ := List.mem_map.1 hv
        exact hnone e he hev
      · exact ⟨_, List.mem_append_right _ (List.mem_singleton_self _), rfl⟩
      · intro e he
        exact ⟨e, List.mem_append_left _ he, rfl⟩
    | some e0 =>
      have h0 := find_kv_some_value _ _ _ _ hf
      refine ⟨bump_value k (t.getD (chaos_hash k 6 % 16) []), ?_, ?_, ?_, ?_, ?_⟩
      · rw [chaos_table_append]
        simp only [hne, Bool.false_eq_true, if_false, hlen, hf]
        rw [bump_kv_eq k _ hbk (hnodup _)]
      · intro e he
        obtain ⟨x, hx, rfl⟩ := List.mem_map.1 he
        have h := hentry _ x hx
        by_cases hv : x.value = k
        · simp only [hv, if_true]
          refine ⟨by rw [h.1, hv], by rw [h.1, hv], ?_, by omega⟩
          rw [List.count_append, List.count_singleton, h.2.2.1, hv]
          simp
        · simp only [hv, if_false]
          refine ⟨h.1, h.2.1, ?_, h.2.2.2⟩
          rw [List.count_append, List.count_singleton, h.2.2.1]
          have : (k == x.value) = false := by simpa using fun h => hv h.symm
          simp [this]
      · have : (bump_value k (t.getD (chaos_hash k 6 % 16) [])).map (fun e => e.value)
            = (t.getD (chaos_hash k 6 % 16) []).map (fun e => e.value) := by
          simp only [bump_value, List.map_map]
          apply List.map_congr_left
          intro x _
          by_cases hv : x.value = k <;> simp [hv]
        rw [this]
        exact hnodup _
      · refine ⟨{ e0 with freq := e0.freq + 1 }, ?_, h0.2.2⟩
        apply List.mem_map.2
        exact ⟨e0, h0.1, by simp [h0.2.2]⟩
      · intro e he
        refine ⟨_, List.mem_map_of_mem _ he, ?_⟩
        by_cases hv : e.value = k <;> simp [hv]
  rw [hnb]
  have hget : ∀ j, (t.set (chaos_hash k 6 % 16) nb).getD j [] =
      if j = chaos_hash k 6 % 16 then nb else t.getD j [] :=
    fun j => getD_set_bucket t _ j nb hidx
  refine ⟨by simp, fun _ => by simp [hlen], ?_, ?_, ?_⟩
  · intro i e he
    rw [hget] at he
    by_cases hi : i = chaos_hash k 6 % 16
    · rw [if_pos hi] at he
      have := hP1 e he
      exact ⟨this.1, by rw [hi]; exact this.2.1, this.2.2⟩
    · rw [if_neg hi] at he
      have h := hentry i e he
      refine ⟨h.1, h.2.1, ?_, h.2.2.2⟩
      have hv : e.value ≠ k := by
        intro hv
        apply hi
        rw [← h.2.1, h.1, hv]
      rw [List.count_append, List.count_singleton, h.2.2.1]
      have : (k == e.value) = false := by simpa using fun h => hv h.symm
      simp [this]
  · intro i
    rw [hget]
    split
    · exact hP2
    · exact hnodup i
  · intro k' hk'
    rw [hget]
    rcases List.mem_append.1 hk' with hk' | hk'
    · obtain ⟨e, he, hv⟩ := hpresent k' hk'
      by_cases hi : chaos_hash k' 6 % 16 = chaos_hash k 6 % 16
      · rw [if_pos hi]
        rw [hi] at he
        obtain ⟨e', he', hv'⟩ := hP4 e he
        exact ⟨e', he', by rw [hv', hv]⟩
      · rw [if_neg hi]
        exact ⟨e, he, hv⟩
    · simp at hk'
      subst hk'
      simpa using hP3

/-- The table the counting loop builds is well formed. -/
theorem table_of_inv (ks : List CStr) : TableInv ks (table_of ks) := by
  induction ks using List.reverseRecOn with
  | nil => exact ⟨fun _ => rfl, fun h => absurd rfl h, by simp [table_of], by simp [table_of],
      by simp⟩
  | append_singleton ks k ih =>
    rw [table_of_snoc]
    by_cases hks : ks = []
    · rw [ih.empty hks, table_append_nil]
      subst hks
      apply table_append_inv [] _ k (by simp)
      · intro i e he
        rw [getD_replicate_nil] at he
        simp at he
      · intro i
        rw [getD_replicate_nil]
        simp
      · simp
    · exact table_append_inv ks _ k (ih.size hks) ih.entry ih.nodup ih.present

/-- Every entry of the table the counting loop builds holds one of the appended
strings, with the number of times it was appended. -/
theorem table_of_entry (ks : List CStr) (b : chaos_Bucket) (hb : b ∈ table_of ks)
    (e : chaos_KV) (he : e ∈ b) : e.value ∈ ks ∧ e.freq = ks.count e.value := by
  obtain ⟨i, hi, rfl⟩ := List.getElem_of_mem hb
  have h := (table_of_inv ks).entry i e (by rw [List.getD_eq_getElem _ _ hi]; exact he)
  refine ⟨?_, h.2.2.1⟩
  rw [← List.count_pos_iff, ← h.2.2.1]
  exact h.2.2.2

/-- The frequency the table holds for a string is the number of times the
string was appended; a string never appended has no entry. -/
theorem table_freq_of (ks : List CStr) (k : CStr) :
    table_freq (table_of ks) k 6 = if ks.count k = 0 then none else some (ks.count k) := by
  have inv := table_of_inv ks
  by_cases hk : k ∈ ks
  · have hne : ks ≠ [] := by rintro rfl; simp at hk
    have hlen := inv.size hne
    have hemp : (table_of ks).isEmpty = false := by
      cases h : table_of ks with
      | nil => rw [h] at hlen; simp at hlen
      | cons _ _ => rfl
    obtain ⟨e, he, hv⟩ := inv.present k hk
    have hf := find_kv_of_mem _ e he (fun x hx => (inv.entry _ x hx).1) (inv.nodup _)
    rw [hv] at hf
    have hc : ks.count k ≠ 0 := by
      have := List.count_pos_iff.2 hk
      omega
    rw [if_neg hc, table_freq]
    simp only [hemp, Bool.false_eq_true, if_false, hlen, hf, Option.map_some']
    rw [(inv.entry _ e he).2.2.1, hv]
  · have hc : ks.count k = 0 := List.count_eq_zero.2 hk
    rw [if_pos hc, table_freq]
    split
    · rfl
    · have : find_kv (chaos_hash k 6) k
          ((table_of ks).getD (chaos_hash k 6 % (table_of ks).length) []) = none := by
        rw [find_kv_eq_none k _ (fun x hx => (inv.entry _ x hx).1)]
        intro e he hv
        have h := inv.entry _ e he
        apply hk
        rw [← hv, ← List.count_pos_iff, ← h.2.2.1]
        exact h.2.2.2
      simp only [this, Option.map_none']

/-- An appended string has an entry, in some bucket, with its number of appends. -/
theorem table_of_present (ks : List CStr) (k : CStr) (hk : k ∈ ks) :
    ∃ b ∈ table_of ks, ∃ e ∈ b, e.value = k ∧ e.freq = ks.count k := by
  have inv := table_of_inv ks
  have hne : ks ≠ [] := by rintro rfl; simp at hk
  have hlen := inv.size hne
  obtain ⟨e, he, hv⟩ := inv.present k hk
  have hi : chaos_hash k 6 % 16 < (table_of ks).length := by
    rw [hlen]; exact Nat.mod_lt _ (by norm_num)
  rw [List.getD_eq_getElem _ _ hi] at he
  refine ⟨_, List.getElem_mem hi, e, he, hv, ?_⟩
  have := (inv.entry (chaos_hash k 6 % 16) e (by rw [List.getD_eq_getElem _ _ hi]; exact he)).2.2.1
  rw [this, hv]

/-! ## Lemmas on the selection loop -/

theorem select_best_flatten (t : chaos_Table) : select_best t = t.flatten.foldl pick none := by
  rw [select_best, List.foldl_flatten]

theorem foldl_pick (l : List chaos_KV) (init : Option chaos_KV) :
    match l.foldl pick init with
    | none => init = none ∧ l = []
    | some b => (init = some b ∨ b ∈ l) ∧ (∀ e ∈ l, e.freq ≤ b.freq) ∧
        (∀ c, init = some c → c.freq ≤ b.freq) := by
  induction l generalizing init with
  | nil =>
    cases init with
    | none => simp
    | some c => simp
  | cons x rest ih =>
    rw [List.foldl_cons]
    have h := ih (pick init x)
    cases hr : rest.foldl pick (pick init x) with
    | none =>
      rw [hr] at h
      cases init <;> simp [pick] at h
      split at h <;> simp at h
    | some b =>
      rw [hr] at h
      simp only at h ⊢
      obtain ⟨h1, h2, h3⟩ := h
      cases init with
      | none =>
        simp only [pick] at h1 h3
        have hx := h3 x rfl
        refine ⟨?_, ?_, by simp⟩
        · right
          rcases h1 with h1 | h1
          · simp at h1; subst h1; exact List.mem_cons_self _ _
          · exact List.mem_cons_of_mem _ h1
        · intro e he
          rcases List.mem_cons.1 he with rfl | he
          · exact hx
          · exact h2 e he
      | some c =>
        simp only [pick] at h1 h3
        by_cases hgt : x.freq > c.freq
        · simp only [hgt, if_true] at h1 h3
          have hx := h3 x rfl
          refine ⟨?_, ?_, ?_⟩
          · right
            rcases h1 with h1 | h1
            · simp at h1; subst h1; exact List.mem_cons_self _ _
            · exact List.mem_cons_of_mem _ h1
          · intro e he
            rcases List.mem_cons.1 he with rfl | he
            · exact hx
            · exact h2 e he
          · intro c' hc'
            simp at hc'; subst hc'
            omega
        · simp only [hgt, if_false] at h1 h3
          have hc := h3 c rfl
          refine ⟨?_, ?_, ?_⟩
          · rcases h1 with h1 | h1
            · left; exact h1
            · right; exact List.mem_cons_of_mem _ h1
          · intro e he
            rcases List.mem_cons.1 he with rfl | he
            · omega
            · exact h2 e he
          · intro c' hc'
            simp at hc'; subst hc'
            exact hc

/-- The selection loop finds nothing only in a table without entries. -/
theorem select_best_none (t : chaos_Table) (h : select_best t = none) : t.flatten = [] := by
  have := foldl_pick t.flatten none
  rw [← select_best_flatten, h] at this
  exact this.2

/-- The entry the selection loop finds is an entry of the table and no entry
has a greater frequency. -/
theorem select_best_some (t : chaos_Table) (b : chaos_KV) (h : select_best t = some b) :
    b ∈ t.flatten ∧ ∀ e ∈ t.flatten, e.freq ≤ b.freq := by
  have := foldl_pick t.flatten none
  rw [← select_best_flatten, h] at this
  simp only at this
  refine ⟨?_, this.2.1⟩
  rcases this.1 with h1 | h1
  · simp at h1
  · exact h1

/-! ## The loops of `main` as functions on lists -/

theorem range_pairs (l : Tokens) :
    (List.range (l.length - 1)).map (fun i => (l.getD i 0, l.getD (i + 1) 0)) = pairs_of l := by
  induction l with
  | nil => rfl
  | cons a l ih =>
    cases l with
    | nil => rfl
    | cons b r =>
      have e : (a :: b :: r).length - 1 = ((b :: r).length - 1) + 1 := by simp
      rw [e, List.range_succ_eq_map, List.map_cons, List.map_map]
      simp only [pairs_of, List.tail_cons, List.zip_cons_cons] at ih ⊢
      rw [← ih]
      simp [Function.comp_def]

theorem keys_of_eq (l : Tokens) : keys_of l = (pairs_of l).map (fun p => pair_key p.1 p.2) := by
  rw [← range_pairs, List.map_map]
  rfl

theorem pair_occurrences_eq (l : Tokens) (x y : Int) :
    pair_occurrences l x y = (pairs_of l).count (x, y) := by
  rw [← range_pairs, List.count, List.countP_map, List.countP_eq_length_filter, pair_occurrences]
  congr 1
  apply List.filter_congr
  intro i _
  rw [Bool.eq_iff_iff]
  simp only [Function.comp, decide_eq_true_eq, beq_iff_eq, Prod.mk.injEq]

theorem replace_loop_eq (tokens : Tokens) (A B N : Int) (fuel i : Nat) (next : Tokens)
    (h : tokens.length ≤ i + fuel) :
    replace_loop tokens A B N fuel i next = next ++ greedy_replace A B N (tokens.drop i) := by
  induction fuel generalizing i next with
  | zero =>
    rw [List.drop_of_length_le (by omega)]
    simp [replace_loop, greedy_replace]
  | succ f ih =>
    rw [replace_loop]
    by_cases hi : i < tokens.length
    · rw [if_pos hi, List.drop_eq_getElem_cons hi, List.getD_eq_getElem _ _ hi]
      by_cases hi1 : i + 1 < tokens.length
      · rw [List.drop_eq_getElem_cons hi1, List.getD_eq_getElem _ _ hi1, greedy_replace]
        by_cases hm : tokens[i] = A ∧ tokens[i + 1] = B
        · rw [if_pos ⟨hi1, hm⟩, if_pos hm, ih (i + 2) _ (by omega)]
          simp
        · rw [if_neg (fun h => hm h.2), if_neg hm, ih (i + 1) _ (by omega),
            List.drop_eq_getElem_cons hi1]
          simp
      · rw [if_neg (fun h => hi1 h.1), ih (i + 1) _ (by omega),
          List.drop_of_length_le (by omega)]
        simp [greedy_replace]
    · rw [if_neg hi, List.drop_of_length_le (by omega)]
      simp [greedy_replace]

/-- The replace loop of `main` computes the greedy replacement. -/
theorem replace_pair_eq (tokens : Tokens) (A B N : Int) :
    replace_pair tokens A B N = greedy_replace A B N tokens := by
  rw [replace_pair, replace_loop_eq tokens A B N _ 0 [] (by omega)]
  simp

theorem mem_of_mem_pairs (l : Tokens) (p : Int × Int) (h : p ∈ pairs_of l) :
    p.1 ∈ l ∧ p.2 ∈ l := by
  obtain ⟨a, b⟩ := p
  have := List.of_mem_zip h
  exact ⟨this.1, List.mem_of_mem_tail this.2⟩

/-- A key is appended at least as often as its pair occurs. -/
theorem count_key_ge (l : Tokens) (x y : Int) :
    (pairs_of l).count (x, y) ≤ (keys_of l).count (pair_key x y) := by
  rw [keys_of_eq]
  unfold List.count
  rw [List.countP_map]
  apply List.countP_mono_left
  intro p _ hp
  simp only [Function.comp, beq_iff_eq] at hp ⊢
  rw [hp]

/-- With all ids in `[0, 999]` a key is appended exactly as often as its pair occurs. -/
theorem count_key_eq (l : Tokens) (x y : Int) (h : ∀ t ∈ l, 0 ≤ t ∧ t ≤ 999) :
    (keys_of l).count (pair_key x y) = (pairs_of l).count (x, y) := by
  rw [keys_of_eq]
  unfold List.count
  rw [List.countP_map]
  apply List.countP_congr
  intro p hp
  have hm := mem_of_mem_pairs l p hp
  have h1 := h p.1 hm.1
  have h2 := h p.2 hm.2
  simp only [Function.comp, beq_iff_eq]
  constructor
  · intro e
    have := pair_key_inj_small x y p.1 p.2 h1.1 h1.2 h2.1 h2.2 e.symm
    exact Prod.ext this.1.symm this.2.symm
  · intro e
    rw [e]

/-! ## Lemmas on one iteration -/

theorem step_some (s s' : State) (h : step s = some s') :
    ∃ best, select_best (count_pairs s.tokens) = some best ∧ 1 < best.freq ∧
      s' = { tokens := replace_pair s.tokens (atoi (best.value.take 3))
                (atoi ((best.value.drop 3).take 3)) s.next_token,
             merges := s.merges ++ [{ left := atoi (best.value.take 3),
                                      right := atoi ((best.value.drop 3).take 3),
                                      token := s.next_token }],
             next_token := s.next_token + 1 } := by
  unfold step at h
  split at h
  · simp at h
  · rename_i best hb
    split at h
    · simp at h
    · rename_i hf
      refine ⟨best, hb, by omega, ?_⟩
      simp only [Option.some.injEq] at h
      exact h.symm

theorem step_none (s : State) (h : step s = none) :
    ∀ b ∈ count_pairs s.tokens, ∀ e ∈ b, e.freq ≤ 1 := by
  intro b hb e he
  have hmem : e ∈ (count_pairs s.tokens).flatten := List.mem_flatten.2 ⟨b, hb, he⟩
  unfold step at h
  split at h
  · rename_i hn
    have := select_best_none _ hn
    rw [this] at hmem
    simp at hmem
  · rename_i best hs
    split at h
    · rename_i hf
      have := (select_best_some _ _ hs).2 e hmem
      omega
    · simp at h

/-- When the loop breaks no adjacent pair occurs at two positions. -/
theorem step_none_occurrences (s : State) (h : step s = none) (x y : Int) :
    pair_occurrences s.tokens x y ≤ 1 := by
  by_contra hc
  have h2 : 2 ≤ (keys_of s.tokens).count (pair_key x y) := by
    have := count_key_ge s.tokens x y
    rw [← pair_occurrences_eq] at this
    omega
  have hk : pair_key x y ∈ keys_of s.tokens := List.count_pos_iff.1 (by omega)
  obtain ⟨b, hb, e, he, _, hfreq⟩ := table_of_present _ _ hk
  rw [← count_pairs_eq] at hb
  have := step_none s h b hb e he
  omega

theorem train_stops (fuel : Nat) (s0 s : State) (h : train fuel s0 = some s) :
    step s = none ∧ ∃ n, n < fuel ∧ iterate n s0 = some s := by
  induction fuel generalizing s0 with
  | zero => simp [train] at h
  | succ f ih =>
    rw [train] at h
    split at h
    · rename_i hs
      simp only [Option.some.injEq] at h
      subst h
      exact ⟨hs, 0, by omega, rfl⟩
    · rename_i s1 hs
      obtain ⟨h1, n, hn, hit⟩ := ih s1 h
      exact ⟨h1, n + 1, by omega, by simp [iterate, hs, hit]⟩

/-- C4 (stopping correctness): on every input on which the training loop stops,
the final token sequence has length at most one or no ordered adjacent pair
occurs in it at two or more positions. -/
theorem stopping_correctness (sb : List Byte) (fuel : Nat) (s : State)
    (h : train fuel (init sb) = some s) :
    s.tokens.length ≤ 1 ∨ ∀ x y : Int, pair_occurrences s.tokens x y ≤ 1 :=
  Or.inr (step_none_occurrences s (train_stops fuel _ s h).1)

theorem stopping_correctness_witness :
    train 3 (init [97, 98, 97, 98, 99]) =
        some { tokens := [256, 256, 99], merges := [{ left := 97, right := 98, token := 256 }],
               next_token := 257 } ∧
      ((3 : Nat) ≤ 1 ∨ ∀ x y : Int, pair_occurrences [256, 256, 99] x y ≤ 1) :=
  ⟨by decide, stopping_correctness [97, 98, 97, 98, 99] 3
    { tokens := [256, 256, 99], merges := [{ left := 97, right := 98, token := 256 }],
      next_token := 257 } (by decide)⟩

/-- C9 (greedy replace): for every token sequence, pair `(A, B)` and new id `N`
the replace loop of `main` builds the sequence of the left-to-right reference
scan (`(A, B)` at the current position: emit `N`, skip two; otherwise emit the
current token, skip one); one accepted merge turns the bytes `aaaa` into
`[256, 256]`, `aaaaa` into `[256, 256, 97]` and `ababab` into `[256, 256, 256]`. -/
theorem greedy_replace_refinement :
    (∀ (tokens : Tokens) (A B N : Int),
      replace_pair tokens A B N = greedy_replace A B N tokens) ∧
    (step (init [97, 97, 97, 97])).map State.tokens = some [256, 256] ∧
    (step (init [97, 97, 97, 97, 97])).map State.tokens = some [256, 256, 97] ∧
    (step (init [97, 98, 97, 98, 97, 98])).map State.tokens = some [256, 256, 256] :=
  ⟨replace_pair_eq, by decide, by decide, by decide⟩

/-- C10 (pair counting): for every token sequence with all ids in `[0, 999]`
and every ordered pair `(x, y)`, the frequency the counter holds under the key
of `(x, y)` is the number of indices `i` with `seq[i] = x` and `seq[i+1] = y`,
and a pair that never occurs has no entry in any bucket. -/
theorem pair_counting (tokens : Tokens) (x y : Int) (h : ∀ t ∈ tokens, 0 ≤ t ∧ t ≤ 999) :
    table_freq (count_pairs tokens) (pair_key x y) 6 =
        (if pair_occurrences tokens x y = 0 then none
         else some (pair_occurrences tokens x y)) ∧
      (pair_occurrences tokens x y = 0 →
        ∀ b ∈ count_pairs tokens, ∀ e ∈ b, e.value ≠ pair_key x y) := by
  have hc := count_key_eq tokens x y h
  rw [← pair_occurrences_eq] at hc
  rw [count_pairs_eq, table_freq_of, hc]
  refine ⟨rfl, ?_⟩
  intro h0 b hb e he hv
  have := (table_of_entry _ b hb e he).1
  rw [hv, ← List.count_pos_iff, hc] at this
  omega

theorem pair_counting_witness :
    (∀ t ∈ ([97, 97, 97, 97] : Tokens), 0 ≤ t ∧ t ≤ 999) ∧
      pair_occurrences [97, 97, 97, 97] 97 97 = 3 ∧
      table_freq (count_pairs [97, 97, 97, 97]) (pair_key 97 97) 6 = some 3 :=
  ⟨by decide, by decide,
    (pair_counting [97, 97, 97, 97] 97 97 (by decide)).1.trans (by decide)⟩

/-! ## The invariant of the training loop -/

/-- The entry the selection loop finds holds the key of an adjacent pair of the
sequence, with the number of positions that have this key. -/
theorem best_pair (tokens : Tokens) (best : chaos_KV)
    (h : select_best (count_pairs tokens) = some best) :
    ∃ a b, (a, b) ∈ pairs_of tokens ∧ best.value = pair_key a b ∧
      best.freq = (keys_of tokens).count (pair_key a b) := by
  have hm := (select_best_some _ _ h).1
  obtain ⟨bk, hbk, hbest⟩ := List.mem_flatten.1 hm
  rw [count_pairs_eq] at hbk
  have he := table_of_entry _ bk hbk best hbest
  have hv := he.1
  rw [keys_of_eq] at hv
  obtain ⟨p, hp, hpv⟩ := List.mem_map.1 hv
  refine ⟨p.1, p.2, hp, hpv.symm, ?_⟩
  rw [he.2, ← hpv]

theorem greedy_replace_mem (A B N : Int) (l : Tokens) :
    ∀ t ∈ greedy_replace A B N l, t = N ∨ t ∈ l := by
  induction l using greedy_replace.induct A B N with
  | case1 a b rest hab ih =>
    intro t ht
    rw [greedy_replace, if_pos hab] at ht
    rcases List.mem_cons.1 ht with rfl | ht
    · exact Or.inl rfl
    · rcases ih t ht with h | h
      · exact Or.inl h
      · exact Or.inr (List.mem_cons_of_mem _ (List.mem_cons_of_mem _ h))
  | case2 a b rest hab ih =>
    intro t ht
    rw [greedy_replace, if_neg hab] at ht
    rcases List.mem_cons.1 ht with rfl | ht
    · exact Or.inr (List.mem_cons_self _ _)
    · rcases ih t ht with h | h
      · exact Or.inl h
      · exact Or.inr (List.mem_cons_of_mem _ h)
  | case3 a => intro t ht; exact Or.inr (by simpa [greedy_replace] using ht)
  | case4 => intro t ht; simp [greedy_replace] at ht

/-- The two ids read back from the selected key lie in `[0, next_token)`. -/
theorem parse_best_bound (s : State) (inv : StateInv s) (best : chaos_KV)
    (h : select_best (count_pairs s.tokens) = some best) :
    (0 ≤ atoi (best.value.take 3) ∧ atoi (best.value.take 3) < s.next_token) ∧
    (0 ≤ atoi ((best.value.drop 3).take 3) ∧
      atoi ((best.value.drop 3).take 3) < s.next_token) := by
  obtain ⟨a, b, hp, hv, _⟩ := best_pair s.tokens best h
  have hm := mem_of_mem_pairs _ _ hp
  have ha := inv.tokens a hm.1
  have hb := inv.tokens b hm.2
  rw [hv]
  by_cases hs : a ≤ 999 ∧ b ≤ 999
  · have := parse_small a b ha.1 hs.1 hb.1 hs.2
    rw [this.1, this.2]
    exact ⟨ha, hb⟩
  · have := parse_bound a b ha.1 hb.1
    have hn : 1000 < s.next_token := by omega
    refine ⟨⟨this.1.1, by omega⟩, ⟨this.2.1, by omega⟩⟩

theorem init_inv (sb : List Byte) : StateInv (init sb) := by
  refine ⟨rfl, fun k h => absurd h (by simp [init]), ?_⟩
  intro t ht
  simp only [init, List.mem_map] at ht
  obtain ⟨b, _, rfl⟩ := ht
  have := b.isLt
  simp only [init]
  omega

theorem step_inv (s s' : State) (inv : StateInv s) (h : step s = some s') : StateInv s' := by
  obtain ⟨best, hb, _, rfl⟩ := step_some s s' h
  have hp := parse_best_bound s inv best hb
  have hn := inv.next
  refine ⟨?_, ?_, ?_⟩
  · simp only [List.length_append, List.length_singleton]
    push_cast
    omega
  · intro k hk
    simp only [List.length_append, List.length_singleton] at hk
    by_cases hk' : k < s.merges.length
    · simp only [List.getElem_append_left hk']
      exact inv.record k hk'
    · have hke : k = s.merges.length := by omega
      subst hke
      simp only [List.getElem_concat_length]
      refine ⟨hn, ⟨hp.1.1, by omega⟩, ⟨hp.2.1, by omega⟩⟩
  · intro t ht
    simp only [replace_pair_eq] at ht
    rcases greedy_replace_mem _ _ _ _ t ht with rfl | ht
    · simp only; omega
    · have := inv.tokens t ht
      simp only; omega

theorem iterate_inv (n : Nat) (s0 s : State) (inv : StateInv s0) (h : iterate n s0 = some s) :
    StateInv s := by
  induction n generalizing s0 with
  | zero =>
    simp only [iterate, Option.some.injEq] at h
    subst h
    exact inv
  | succ n ih =>
    rw [iterate] at h
    cases hs : step s0 with
    | none => rw [hs] at h; simp at h
    | some s1 =>
      rw [hs] at h
      exact ih s1 (step_inv s0 s1 inv hs) h

/-- C5 (id monotonicity): at every point of training the `k`-th merge record
(from `0`) has the produced id `256 + k`, so the produced ids are
`256, 257, 258, ...` without gap or repeat, none of them below `256`, and the
merge counter is `256` plus the number of records. -/
theorem id_monotonicity (sb : List Byte) (n : Nat) (s : State)
    (h : iterate n (init sb) = some s) :
    (∀ k (hk : k < s.merges.length), s.merges[k].token = 256 + k) ∧
      (∀ m ∈ s.merges, 256 ≤ m.token) ∧
      s.next_token = 256 + s.merges.length := by
  have inv := iterate_inv n _ s (init_inv sb) h
  refine ⟨fun k hk => (inv.record k hk).1, ?_, inv.next⟩
  intro m hm
  obtain ⟨k, hk, rfl⟩ := List.getElem_of_mem hm
  rw [(inv.record k hk).1]
  omega

theorem id_monotonicity_witness :
    iterate 2 (init ababab) = some ababab_final ∧
      ((∀ k (hk : k < ababab_final.merges.length), ababab_final.merges[k].token = 256 + k) ∧
        (∀ m ∈ ababab_final.merges, 256 ≤ m.token) ∧
        ababab_final.next_token = 256 + ababab_final.merges.length) :=
  ⟨by decide, id_monotonicity ababab 2 ababab_final (by decide)⟩

/-- C6 (acyclicity): at every point of training, the left and the right id of
every merge record are each a raw byte id (in `[0, 256)`) or the produced id of
a record at a strictly smaller index of the history. -/
theorem acyclicity (sb : List Byte) (n : Nat) (s : State)
    (h : iterate n (init sb) = some s) (k : Nat) (hk : k < s.merges.length) :
    ((0 ≤ s.merges[k].left ∧ s.merges[k].left < 256) ∨
        ∃ j, ∃ hj : j < s.merges.length, j < k ∧ s.merges[j].token = s.merges[k].left) ∧
      ((0 ≤ s.merges[k].right ∧ s.merges[k].right < 256) ∨
        ∃ j, ∃ hj : j < s.merges.length, j < k ∧ s.merges[j].token = s.merges[k].right) := by
  have inv := iterate_inv n _ s (init_inv sb) h
  have hr := inv.record k hk
  have key : ∀ v : Int, 0 ≤ v → v < 256 + k →
      (0 ≤ v ∧ v < 256) ∨ ∃ j, ∃ hj : j < s.merges.length, j < k ∧ s.merges[j].token = v := by
    intro v h0 hv
    by_cases hs : v < 256
    · exact Or.inl ⟨h0, hs⟩
    · right
      have hj : (v - 256).toNat < k := by omega
      refine ⟨(v - 256).toNat, by omega, hj, ?_⟩
      rw [(inv.record _ (by omega)).1]
      omega
  exact ⟨key _ hr.2.1.1 hr.2.1.2, key _ hr.2.2.1 hr.2.2.2⟩

theorem acyclicity_witness :
    iterate 2 (init ababab) = some ababab_final ∧
      (((0 ≤ ababab_final.merges[1].left ∧ ababab_final.merges[1].left < 256) ∨
          ∃ j, ∃ hj : j < ababab_final.merges.length,
            j < 1 ∧ ababab_final.merges[j].token = ababab_final.merges[1].left) ∧
        ((0 ≤ ababab_final.merges[1].right ∧ ababab_final.merges[1].right < 256) ∨
          ∃ j, ∃ hj : j < ababab_final.merges.length,
            j < 1 ∧ ababab_final.merges[j].token = ababab_final.merges[1].right)) :=
  ⟨by decide, acyclicity ababab 2 ababab_final (by decide) 1 (by decide)⟩

/-! ## Lemmas on the decoder -/

theorem find_merge_some (merges : Merges) (token : Int) (n : Nat) (hn : n ≤ merges.length)
    (m : Merge) (h : find_merge merges token n = some m) : m ∈ merges ∧ m.token = token := by
  induction n with
  | zero => simp [find_merge] at h
  | succ i ih =>
    rw [find_merge] at h
    have hi : i < merges.length := by omega
    rw [List.getD_eq_getElem _ _ hi] at h
    split at h
    · rename_i ht
      simp only [Option.some.injEq] at h
      subst h
      exact ⟨List.getElem_mem hi, ht⟩
    · exact ih (by omega) h

theorem find_merge_none (merges : Merges) (token : Int) (n : Nat) (hn : n ≤ merges.length)
    (h : find_merge merges token n = none) :
    ∀ k (hk : k < merges.length), k < n → merges[k].token ≠ token := by
  induction n with
  | zero => intro k _ hk; omega
  | succ i ih =>
    rw [find_merge] at h
    have hi : i < merges.length := by omega
    rw [List.getD_eq_getElem _ _ hi] at h
    split at h
    · simp at h
    · rename_i ht
      intro k hk hki
      by_cases hke : k = i
      · subst hke; exact ht
      · exact ih (by omega) h k hk (by omega)

/-- A token no record produced is not found by the loop of `decode_token`. -/
theorem find_merge_absent (merges : Merges) (token : Int)
    (h : ∀ m ∈ merges, m.token ≠ token) :
    find_merge merges token merges.length = none := by
  cases hf : find_merge merges token merges.length with
  | none => rfl
  | some m =>
    have := find_merge_some merges token _ (le_refl _) m hf
    exact absurd this.2 (h m this.1)

/-- With pairwise different produced ids the loop of `decode_token` finds the
record of a produced id. -/
theorem find_merge_unique (merges : Merges) (m : Merge) (hm : m ∈ merges)
    (hn : (merges.map (fun r => r.token)).Nodup) :
    find_merge merges m.token merges.length = some m := by
  cases hf : find_merge merges m.token merges.length with
  | none =>
    obtain ⟨k, hk, rfl⟩ := List.getElem_of_mem hm
    exact absurd rfl (find_merge_none merges _ _ (le_refl _) hf k hk hk)
  | some m' =>
    have h := find_merge_some merges _ _ (le_refl _) m' hf
    rw [List.inj_on_of_nodup_map hn h.1 hm h.2]

/-- What `decode_token` appends does not depend on what the buffer holds. -/
theorem decode_token_out (fuel : Nat) (t : Int) (ms : Merges) (out : List Byte) :
    decode_token fuel t ms out = (decode_token fuel t ms []).map (fun bs => out ++ bs) := by
  induction fuel generalizing t out with
  | zero => rfl
  | succ f ih =>
    rw [decode_token, decode_token]
    split
    · simp
    · split
      · rename_i m _
        rw [ih m.left out]
        cases h1 : decode_token f m.left ms [] with
        | none => rfl
        | some bl =>
          simp only [Option.map_some', Option.some_bind]
          rw [ih m.right (out ++ bl), ih m.right bl]
          cases h2 : decode_token f m.right ms [] with
          | none => rfl
          | some br => simp
      · simp

/-- C7 (decoder contract): for every merge history with pairwise different
produced ids, `decode_token` of an id `t` with `0 ≤ t < 256` appends exactly the
single byte `t`, and `decode_token` of an id `t ≥ 256` with a record
`(l, r, t)` decodes `l` and then `r` into the buffer: it appends the bytes of
`l` followed by the bytes of `r`, and nothing else. -/
theorem decoder_contract (merges : Merges) (hn : (merges.map (fun r => r.token)).Nodup) :
    (∀ (fuel : Nat) (t : Int) (out : List Byte), 0 ≤ t → t < 256 →
      ∃ b : Byte, (b.val : Int) = t ∧ decode_token (fuel + 1) t merges out = some (out ++ [b])) ∧
    (∀ (fuel : Nat) (l r t : Int) (out : List Byte), 256 ≤ t →
      { left := l, right := r, token := t } ∈ merges →
      decode_token (fuel + 1) t merges out =
        (decode_token fuel l merges out).bind (fun out1 => decode_token fuel r merges out1)) ∧
    (∀ (fuel : Nat) (l r t : Int) (out bl br : List Byte), 256 ≤ t →
      { left := l, right := r, token := t } ∈ merges →
      decode_token fuel l merges [] = some bl → decode_token fuel r merges [] = some br →
      decode_token (fuel + 1) t merges out = some (out ++ bl ++ br)) := by
  have hrec : ∀ (fuel : Nat) (l r t : Int) (out : List Byte), 256 ≤ t →
      { left := l, right := r, token := t } ∈ merges →
      decode_token (fuel + 1) t merges out =
        (decode_token fuel l merges out).bind (fun out1 => decode_token fuel r merges out1) := by
    intro fuel l r t out ht hm
    have hf := find_merge_unique merges _ hm hn
    simp only at hf
    rw [decode_token, if_neg (by omega), hf]
  refine ⟨?_, hrec, ?_⟩
  · intro fuel t out h0 h1
    refine ⟨to_char t, ?_, ?_⟩
    · simp only [to_char]
      omega
    · rw [decode_token, if_pos h1]
  · intro fuel l r t out bl br ht hm hl hr
    rw [hrec fuel l r t out ht hm, decode_token_out fuel l merges out, hl]
    simp only [Option.map_some', Option.some_bind]
    rw [decode_token_out fuel r merges (out ++ bl), hr]
    simp

theorem decoder_contract_witness :
    (([{ left := 97, right := 98, token := 256 }] : Merges).map (fun r => r.token)).Nodup ∧
      decode_token 2 256 [{ left := 97, right := 98, token := 256 }] [104] =
        some ([104] ++ [97] ++ [98]) :=
  ⟨by decide,
    (decoder_contract [{ left := 97, right := 98, token := 256 }] (by decide)).2.2
      1 97 98 256 [104] [97] [98] (by decide) (by decide) (by decide) (by decide)⟩

/-- C8, the claim as stated fails: the id `300` has no record in the history
`[(97, 98, 256)]`, and `decode_token` returns normally with the output buffer
unchanged; nothing signals a failure. -/
theorem decode_failure_counterexample :
    (∀ m ∈ ([{ left := 97, right := 98, token := 256 }] : Merges), m.token ≠ 300) ∧
      decode_token 1 300 [{ left := 97, right := 98, token := 256 }] [104] = some [104] :=
  ⟨by decide, by decide⟩

/-- C8 as amended: for every merge history and every id `t ≥ 256` that no record
produced, `decode_token` returns normally and appends no byte. -/
theorem decode_missing_silent (merges : Merges) (t : Int) (fuel : Nat) (out : List Byte)
    (ht : 256 ≤ t) (h : ∀ m ∈ merges, m.token ≠ t) :
    decode_token (fuel + 1) t merges out = some out := by
  rw [decode_token, if_neg (by omega), find_merge_absent merges t h]

theorem decode_missing_silent_witness :
    decode_token 1 300 [{ left := 97, right := 98, token := 256 }] [104] = some [104] :=
  decode_missing_silent [{ left := 97, right := 98, token := 256 }] 300 0 [104]
    (by decide) (by decide)

/-! ## Lemmas on adjacent pairs and on the greedy replacement -/

theorem pairs_of_cons_cons (a b : Int) (r : Tokens) :
    pairs_of (a :: b :: r) = (a, b) :: pairs_of (b :: r) := rfl

theorem pairs_of_singleton (a : Int) : pairs_of [a] = [] := rfl

theorem pairs_of_nil : pairs_of [] = [] := rfl

theorem count_pairs_le_left (l : Tokens) (x y : Int) :
    (pairs_of l).count (x, y) ≤ l.count x := by
  induction l with
  | nil => simp [pairs_of_nil]
  | cons a t ih =>
    cases t with
    | nil => simp [pairs_of_singleton]
    | cons b r =>
      rw [pairs_of_cons_cons, List.count_cons, List.count_cons (a := x)]
      have : (if ((a, b) == (x, y)) = true then 1 else 0) ≤ (if (a == x) = true then 1 else 0) := by
        by_cases h : a = x
        · simp [h]; split <;> omega
        · have : ¬ ((a, b) = (x, y)) := fun e => h (Prod.ext_iff.1 e).1
          simp [h, this]
      omega

theorem count_pairs_le_tail (l : Tokens) (x y : Int) :
    (pairs_of l).count (x, y) ≤ l.tail.count y := by
  induction l with
  | nil => simp [pairs_of_nil]
  | cons a t ih =>
    cases t with
    | nil => simp [pairs_of_singleton]
    | cons b r =>
      rw [pairs_of_cons_cons, List.count_cons, List.tail_cons, List.count_cons (a := y)]
      simp only [List.tail_cons] at ih
      have : (if ((a, b) == (x, y)) = true then 1 else 0) ≤ (if (b == y) = true then 1 else 0) := by
        by_cases h : b = y
        · simp [h]; split <;> omega
        · have : ¬ ((a, b) = (x, y)) := fun e => h (Prod.ext_iff.1 e).2
          simp [h, this]
      omega

/-- Across a junction at most one more occurrence appears, and only of a pair
whose second id heads the right part. -/
theorem count_pairs_append_le (l1 l2 : Tokens) (p : Int × Int) :
    (pairs_of (l1 ++ l2)).count p ≤
      (pairs_of l1).count p + (pairs_of l2).count p +
        (if l2.head? = some p.2 then 1 else 0) := by
  induction l1 with
  | nil => simp [pairs_of_nil]
  | cons a t ih =>
    cases t with
    | nil =>
      cases l2 with
      | nil => simp [pairs_of_singleton]
      | cons c r =>
        show (pairs_of (a :: c :: r)).count p ≤ _
        rw [pairs_of_cons_cons, List.count_cons, pairs_of_singleton]
        have : (if ((a, c) == p) = true then 1 else 0) ≤
            (if (c :: r).head? = some p.2 then 1 else 0) := by
          by_cases h : c = p.2
          · simp [h]; split <;> omega
          · have : ¬ ((a, c) = p) := fun e => h (by rw [← e])
            simp [h, this]
        simp only [List.count_nil, zero_add]
        omega
    | cons b r =>
      show (pairs_of (a :: b :: (r ++ l2))).count p ≤ _
      rw [pairs_of_cons_cons, pairs_of_cons_cons, List.count_cons, List.count_cons]
      have : b :: (r ++ l2) = (b :: r) ++ l2 := rfl
      rw [this]
      omega

theorem count_pairs_append_ge (l1 l2 : Tokens) (p : Int × Int) :
    (pairs_of l1).count p + (pairs_of l2).count p ≤ (pairs_of (l1 ++ l2)).count p := by
  induction l1 with
  | nil => simp [pairs_of_nil]
  | cons a t ih =>
    cases t with
    | nil =>
      cases l2 with
      | nil => simp [pairs_of_singleton, pairs_of_nil]
      | cons c r =>
        show _ ≤ (pairs_of (a :: c :: r)).count p
        rw [pairs_of_cons_cons, List.count_cons, pairs_of_singleton]
        simp only [List.count_nil, zero_add]
        omega
    | cons b r =>
      show _ ≤ (pairs_of (a :: b :: (r ++ l2))).count p
      rw [pairs_of_cons_cons, pairs_of_cons_cons, List.count_cons, List.count_cons]
      have : b :: (r ++ l2) = (b :: r) ++ l2 := rfl
      rw [this]
      omega

theorem greedy_replace_head (A B N : Int) (l : Tokens) :
    (greedy_replace A B N l).head? = l.head? ∨ (greedy_replace A B N l).head? = some N := by
  induction l using greedy_replace.induct A B N with
  | case1 a b rest hab _ => right; rw [greedy_replace, if_pos hab]; rfl
  | case2 a b rest hab _ => left; rw [greedy_replace, if_neg hab]; rfl
  | case3 a => left; rfl
  | case4 => left; rfl

/-- Every replacement shortens the sequence by one and leaves one `N`. -/
theorem greedy_replace_length (A B N : Int) (l : Tokens) (hN : N ∉ l) :
    (greedy_replace A B N l).length + (greedy_replace A B N l).count N = l.length := by
  induction l using greedy_replace.induct A B N with
  | case1 a b rest hab ih =>
    have hr : N ∉ rest := fun h => hN (List.mem_cons_of_mem _ (List.mem_cons_of_mem _ h))
    rw [greedy_replace, if_pos hab]
    simp only [List.length_cons, List.count_cons_self]
    have := ih hr
    omega
  | case2 a b rest hab ih =>
    have hr : N ∉ b :: rest := fun h => hN (List.mem_cons_of_mem _ h)
    have ha : a ≠ N := fun h => hN (by rw [h]; exact List.mem_cons_self _ _)
    rw [greedy_replace, if_neg hab]
    simp only [List.length_cons, List.count_cons_of_ne (Ne.symm ha)]
    have := ih hr
    simp only [List.length_cons] at this
    omega
  | case3 a =>
    have ha : a ≠ N := fun h => hN (by rw [h]; exact List.mem_cons_self _ _)
    simp [greedy_replace, List.count_cons_of_ne (Ne.symm ha)]
  | case4 => simp [greedy_replace]

theorem count_pairs_tail_le (b : Int) (rest : Tokens) (p : Int × Int) :
    (pairs_of rest).count p ≤ (pairs_of (b :: rest)).count p := by
  cases rest with
  | nil => simp [pairs_of_nil]
  | cons c r =>
    rw [pairs_of_cons_cons, List.count_cons]
    omega

/-- There are at most as many replacements as occurrences of the pair. -/
theorem greedy_replace_count_new_le (A B N : Int) (l : Tokens) (hN : N ∉ l) :
    (greedy_replace A B N l).count N ≤ (pairs_of l).count (A, B) := by
  induction l using greedy_replace.induct A B N with
  | case1 a b rest hab ih =>
    have hr : N ∉ rest := fun h => hN (List.mem_cons_of_mem _ (List.mem_cons_of_mem _ h))
    rw [greedy_replace, if_pos hab, pairs_of_cons_cons, hab.1, hab.2]
    simp only [List.count_cons_self]
    have := ih hr
    have := count_pairs_tail_le B rest (A, B)
    omega
  | case2 a b rest hab ih =>
    have hr : N ∉ b :: rest := fun h => hN (List.mem_cons_of_mem _ h)
    have ha : a ≠ N := fun h => hN (by rw [h]; exact List.mem_cons_self _ _)
    rw [greedy_replace, if_neg hab, pairs_of_cons_cons, List.count_cons_of_ne (Ne.symm ha),
      List.count_cons]
    have := ih hr
    omega
  | case3 a =>
    have ha : a ≠ N := fun h => hN (by rw [h]; exact List.mem_cons_self _ _)
    simp [greedy_replace, List.count_cons_of_ne (Ne.symm ha)]
  | case4 => simp [greedy_replace]

/-- A pair that occurs is replaced at least once. -/
theorem greedy_replace_new_mem (A B N : Int) (l : Tokens) (h : (A, B) ∈ pairs_of l) :
    N ∈ greedy_replace A B N l := by
  induction l using greedy_replace.induct A B N with
  | case1 a b rest hab _ =>
    rw [greedy_replace, if_pos hab]
    exact List.mem_cons_self _ _
  | case2 a b rest hab ih =>
    rw [greedy_replace, if_neg hab]
    rw [pairs_of_cons_cons] at h
    rcases List.mem_cons.1 h with h | h
    · exact absurd ⟨(Prod.ext_iff.1 h).1.symm, (Prod.ext_iff.1 h).2.symm⟩ hab
    · exact List.mem_cons_of_mem _ (ih h)
  | case3 a => simp [pairs_of_singleton] at h
  | case4 => simp [pairs_of_nil] at h

theorem greedy_replace_count_le (A B N : Int) (l : Tokens) (x : Int) (hx : x ≠ N) :
    (greedy_replace A B N l).count x ≤ l.count x := by
  induction l using greedy_replace.induct A B N with
  | case1 a b rest hab ih =>
    rw [greedy_replace, if_pos hab, List.count_cons_of_ne hx, List.count_cons,
      List.count_cons]
    omega
  | case2 a b rest hab ih =>
    rw [greedy_replace, if_neg hab, List.count_cons, List.count_cons (a := x) (b := a)]
    omega
  | case3 a => simp [greedy_replace]
  | case4 => simp [greedy_replace]

theorem count_pairs_cons_ne (h : Int) (t : Tokens) (x y : Int) (hx : x ≠ h) :
    (pairs_of (h :: t)).count (x, y) = (pairs_of t).count (x, y) := by
  cases t with
  | nil => simp [pairs_of_singleton, pairs_of_nil]
  | cons c r =>
    rw [pairs_of_cons_cons, List.count_cons_of_ne]
    intro e
    exact hx (Prod.ext_iff.1 e).1

/-- The replacement creates no adjacent pair of old ids. -/
theorem greedy_replace_pairs_le (A B N : Int) (l : Tokens) (x y : Int)
    (hx : x ≠ N) (hy : y ≠ N) :
    (pairs_of (greedy_replace A B N l)).count (x, y) ≤ (pairs_of l).count (x, y) := by
  induction l using greedy_replace.induct A B N with
  | case1 a b rest hab ih =>
    rw [greedy_replace, if_pos hab, count_pairs_cons_ne N _ x y hx]
    have h1 := count_pairs_tail_le b rest (x, y)
    have h2 := count_pairs_tail_le a (b :: rest) (x, y)
    omega
  | case2 a b rest hab ih =>
    rw [greedy_replace, if_neg hab, pairs_of_cons_cons, List.count_cons]
    cases hg : greedy_replace A B N (b :: rest) with
    | nil =>
      rw [pairs_of_singleton]
      simp
    | cons c g =>
      rw [hg] at ih
      rw [pairs_of_cons_cons, List.count_cons]
      have hh := greedy_replace_head A B N (b :: rest)
      rw [hg] at hh
      simp only [List.head?_cons, Option.some.injEq] at hh
      have : (if ((a, c) == (x, y)) = true then 1 else 0) ≤
          (if ((a, b) == (x, y)) = true then 1 else 0) := by
        rcases hh with hh | hh
        · rw [hh]
        · have : ¬ ((a, c) = (x, y)) := by
            intro e
            simp only [Prod.mk.injEq] at e
            apply hy
            rw [← e.2, hh]
          simp [this]
      omega
  | case3 a => simp [greedy_replace]
  | case4 => simp [greedy_replace]

/-- The scan of a concatenation is the concatenation of the scans when the
right part does not start with `B`. -/
theorem greedy_replace_append (A B N : Int) (l1 l2 : Tokens) (h : l2.head? ≠ some B) :
    greedy_replace A B N (l1 ++ l2) = greedy_replace A B N l1 ++ greedy_replace A B N l2 := by
  induction l1 using greedy_replace.induct A B N with
  | case1 a b rest hab ih =>
    show greedy_replace A B N (a :: b :: (rest ++ l2)) = _
    rw [greedy_replace, if_pos hab, greedy_replace, if_pos hab, ih]
    rfl
  | case2 a b rest hab ih =>
    show greedy_replace A B N (a :: b :: (rest ++ l2)) = _
    rw [greedy_replace, if_neg hab, greedy_replace, if_neg hab]
    have : b :: (rest ++ l2) = (b :: rest) ++ l2 := rfl
    rw [this, ih]
    rfl
  | case3 a =>
    cases l2 with
    | nil => simp [greedy_replace]
    | cons c r =>
      have hc : ¬ (a = A ∧ c = B) := by
        intro e
        apply h
        rw [List.head?_cons, e.2]
      show greedy_replace A B N (a :: c :: r) = _
      rw [greedy_replace, if_neg hc]
      rfl
  | case4 => simp [greedy_replace]

/-! ## States the loop cannot leave -/

theorem stuck_step (s : State) (h : Stuck s) :
    ∃ s', step s = some s' ∧ s'.tokens = s.tokens ∧
      s'.merges.length = s.merges.length + 1 := by
  obtain ⟨p, q, ht, hp0, hq0, hbig⟩ := h
  have hocc : 2 ≤ pair_occurrences s.tokens p q := by
    rw [pair_occurrences_eq, ht]
    simp [pairs_of, List.count_cons]
  have hne : step s ≠ none := by
    intro hs
    have := step_none_occurrences s hs p q
    omega
  obtain ⟨s', hs'⟩ := Option.ne_none_iff_exists'.1 hne
  obtain ⟨best, hb, _, rfl⟩ := step_some s s' hs'
  obtain ⟨a, b, hab, hv, _⟩ := best_pair s.tokens best hb
  have hm := mem_of_mem_pairs _ _ hab
  rw [ht] at hm
  have ha0 : 0 ≤ a := by
    have := hm.1
    simp at this
    rcases this with h | h <;> omega
  have hb0 : 0 ≤ b := by
    have := hm.2
    simp at this
    rcases this with h | h <;> omega
  have hpb := parse_bound a b ha0 hb0
  rw [← hv] at hpb
  refine ⟨_, hs', ?_, by simp⟩
  simp only [replace_pair_eq, ht]
  have h1 : ¬ (p = atoi (best.value.take 3) ∧ q = atoi ((best.value.drop 3).take 3)) := by
    intro e; omega
  have h2 : ¬ (q = atoi (best.value.take 3) ∧ p = atoi ((best.value.drop 3).take 3)) := by
    intro e; omega
  simp [greedy_replace, h1, h2]

theorem stuck_forever (s : State) (h : Stuck s) (fuel : Nat) : train fuel s = none := by
  induction fuel generalizing s with
  | zero => rfl
  | succ f ih =>
    obtain ⟨s', hs', ht, _⟩ := stuck_step s h
    rw [train, hs']
    apply ih
    obtain ⟨p, q, h1, h2⟩ := h
    exact ⟨p, q, by rw [ht, h1], h2⟩

theorem train_none_of_iterate (n : Nat) (s0 s : State) (h : iterate n s0 = some s)
    (hs : ∀ fuel, train fuel s = none) (fuel : Nat) : train fuel s0 = none := by
  induction n generalizing s0 fuel with
  | zero =>
    simp only [iterate, Option.some.injEq] at h
    subst h
    exact hs fuel
  | succ n ih =>
    rw [iterate] at h
    cases h1 : step s0 with
    | none => rw [h1] at h; simp at h
    | some s1 =>
      rw [h1] at h
      cases fuel with
      | zero => rfl
      | succ f =>
        rw [train, h1]
        exact ih s1 h f

theorem iterate_succ (n : Nat) (s0 : State) :
    iterate (n + 1) s0 = (iterate n s0).bind step := by
  induction n generalizing s0 with
  | zero => simp [iterate]
  | succ n ih =>
    rw [iterate]
    cases h1 : step s0 with
    | none => simp [iterate, h1]
    | some s1 =>
      simp only [Option.some_bind]
      rw [ih s1]
      conv_rhs => rw [iterate, h1]
      simp

/-! ## The run on the long input -/

theorem pairs_nodup_iff (l : List (Int × Int)) : l.Nodup ↔ ∀ p, l.count p ≤ 1 := by
  rw [List.nodup_iff_count_le_one]
  have e : ∀ p, @List.count _ instBEqOfDecidableEq p l = l.count p := by
    intro p
    unfold List.count
    apply List.countP_congr
    intro x _
    simp only [beq_iff_eq]
    exact ⟨fun h => of_decide_eq_true h, fun h => decide_eq_true h⟩
  constructor
  · intro h p
    rw [← e]
    exact h p
  · intro h p
    rw [e]
    exact h p

/-- One iteration from a doubled word with all ids in `[0, 999]`: the merge is
accepted, the word loses one token and gains the new id. -/
theorem doubled_step (s : State) (w : Tokens) (h : Doubled s w) (h2 : 2 ≤ w.length)
    (hn : s.next_token ≤ 1000) :
    ∃ s' w', step s = some s' ∧ Doubled s' w' ∧ w'.length + 1 = w.length ∧
      s.next_token ∈ w' := by
  obtain ⟨f, g, r, rfl⟩ : ∃ f g r, w = f :: g :: r := by
    match w, h2 with
    | f :: g :: r, _ => exact ⟨f, g, r, rfl⟩
  obtain ⟨f', hf', hcf⟩ := h.first
  simp only [List.head?_cons, Option.some.injEq] at hf'
  subst hf'
  have hfr : (g :: r).count f = 0 := by
    rw [List.count_cons_self] at hcf
    omega
  -- the merge is accepted
  have hfg : 1 ≤ (pairs_of (f :: g :: r)).count (f, g) := by
    rw [pairs_of_cons_cons, List.count_cons_self]
    omega
  have hocc : 2 ≤ pair_occurrences s.tokens f g := by
    rw [pair_occurrences_eq, h.tokens]
    have := count_pairs_append_ge (f :: g :: r) (f :: g :: r) (f, g)
    omega
  have hne : step s ≠ none := by
    intro hs
    have := step_none_occurrences s hs f g
    omega
  obtain ⟨s', hs'⟩ := Option.ne_none_iff_exists'.1 hne
  have inv' := step_inv s s' h.inv hs'
  obtain ⟨best, hb, hfreq, rfl⟩ := step_some s s' hs'
  obtain ⟨a, b, hab, hv, hcount⟩ := best_pair s.tokens best hb
  -- the key is read back exactly
  have hsmall : ∀ t ∈ s.tokens, 0 ≤ t ∧ t ≤ 999 := by
    intro t ht
    have := h.inv.tokens t ht
    omega
  have hm := mem_of_mem_pairs _ _ hab
  have hpa := hsmall a hm.1
  have hpb := hsmall b hm.2
  have hparse := parse_small a b hpa.1 hpa.2 hpb.1 hpb.2
  rw [← hv] at hparse
  rw [count_key_eq _ a b hsmall, h.tokens] at hcount
  -- the pair is not the one across the junction
  have hbf : b ≠ f := by
    intro e
    subst e
    have h1 := count_pairs_le_tail ((b :: g :: r) ++ (b :: g :: r)) a b
    have h3 : ((b :: g :: r) ++ (b :: g :: r)).tail = (g :: r) ++ (b :: g :: r) := rfl
    rw [h3, List.count_append, hfr, hcf] at h1
    omega
  have hw1 : (pairs_of (f :: g :: r)).count (a, b) = 1 := by
    have hle := count_pairs_append_le (f :: g :: r) (f :: g :: r) (a, b)
    have hno : ¬ ((f :: g :: r).head? = some (a, b).2) := by
      simp only [List.head?_cons, Option.some.injEq]
      exact fun e => hbf e.symm
    rw [if_neg hno] at hle
    have := (pairs_nodup_iff _).1 h.nodup (a, b)
    omega
  have hfresh : s.next_token ∉ f :: g :: r := by
    intro hmem
    have := h.inv.tokens s.next_token (by rw [h.tokens]; exact List.mem_append_left _ hmem)
    omega
  have hmemw : (a, b) ∈ pairs_of (f :: g :: r) := List.count_pos_iff.1 (by omega)
  -- the new word
  have hcn1 : (greedy_replace a b s.next_token (f :: g :: r)).count s.next_token = 1 := by
    have h1 := greedy_replace_count_new_le a b s.next_token _ hfresh
    have h2 : 0 < (greedy_replace a b s.next_token (f :: g :: r)).count s.next_token :=
      List.count_pos_iff.2 (greedy_replace_new_mem a b s.next_token _ hmemw)
    omega
  have hlen := greedy_replace_length a b s.next_token _ hfresh
  refine ⟨_, greedy_replace a b s.next_token (f :: g :: r), hs', ?_, by omega,
    greedy_replace_new_mem a b s.next_token _ hmemw⟩
  refine ⟨?_, ?_, ?_, inv', ?_⟩
  · simp only [replace_pair_eq, hparse.1, hparse.2, h.tokens]
    apply greedy_replace_append
    simp only [List.head?_cons, ne_eq, Option.some.injEq]
    exact fun e => hbf e.symm
  · rw [pairs_nodup_iff]
    rintro ⟨x, y⟩
    by_cases hx : x = s.next_token
    · have := count_pairs_le_left (greedy_replace a b s.next_token (f :: g :: r)) x y
      rw [hx] at this ⊢
      omega
    · by_cases hy : y = s.next_token
      · have h1 := count_pairs_le_tail (greedy_replace a b s.next_token (f :: g :: r)) x y
        have h3 := (List.tail_sublist
          (greedy_replace a b s.next_token (f :: g :: r))).count_le s.next_token
        rw [hy] at h1 ⊢
        omega
      · have h1 := greedy_replace_pairs_le a b s.next_token (f :: g :: r) x y hx hy
        have h3 := (pairs_nodup_iff _).1 h.nodup (x, y)
        omega
  · rcases greedy_replace_head a b s.next_token (f :: g :: r) with hh | hh
    · refine ⟨f, hh, ?_⟩
      have hfN : f ≠ s.next_token := by
        intro e
        exact hfresh (by rw [← e]; exact List.mem_cons_self _ _)
      have h1 := greedy_replace_count_le a b s.next_token (f :: g :: r) f hfN
      have h3 : 0 < (greedy_replace a b s.next_token (f :: g :: r)).count f :=
        List.count_pos_iff.2 (List.mem_of_mem_head? hh)
      omega
    · exact ⟨s.next_token, hh, hcn1⟩
  · have := h.size
    simp only [List.length_append, List.length_singleton]
    omega

theorem increasing_pairwise (l : List Nat) (h : increasing l = true) :
    l.Pairwise (fun a b => a < b) := by
  rw [← List.chain'_iff_pairwise]
  induction l with
  | nil => exact List.chain'_nil
  | cons a t ih =>
    cases t with
    | nil => exact List.chain'_singleton a
    | cons b r =>
      simp only [increasing, Bool.and_eq_true, decide_eq_true_eq] at h
      exact List.chain'_cons.2 ⟨h.1, ih h.2⟩

set_option maxRecDepth 1000000 in
theorem bug_tokens_codes : increasing ((pairs_of bug_tokens).map pair_code) = true := by
  decide!

set_option maxRecDepth 1000000 in
theorem bug_tokens_first : ∀ t ∈ bug_tokens.tail, t ≠ 255 := by
  decide!

theorem bug_tokens_length : bug_tokens.length = 747 := by
  simp [bug_tokens, bug_half]

set_option maxRecDepth 1000000 in
theorem bug_tokens_head : bug_tokens.head? = some 255 := by
  decide!

/-- The long input starts the loop in a doubled state. -/
theorem doubled_init : Doubled (init bug_input) bug_tokens := by
  refine ⟨?_, ?_, ⟨255, bug_tokens_head, ?_⟩, init_inv _, ?_⟩
  · simp [init, bug_input, bug_tokens]
  · have := (increasing_pairwise _ bug_tokens_codes).imp (fun h => Nat.ne_of_lt h)
    exact List.Nodup.of_map pair_code this
  · have hh := bug_tokens_head
    cases hb : bug_tokens with
    | nil => rw [hb] at hh; simp at hh
    | cons c t =>
      rw [hb] at hh
      simp only [List.head?_cons, Option.some.injEq] at hh
      subst hh
      have := bug_tokens_first
      rw [hb, List.tail_cons] at this
      rw [List.count_cons_self, List.count_eq_zero.2 (fun hm => this 255 hm rfl)]
  · simp [init, bug_tokens_length]

/-- The first 745 iterations on the long input. -/
theorem doubled_iterate (k : Nat) (hk : k ≤ 745) :
    ∃ s w, iterate k (init bug_input) = some s ∧ Doubled s w ∧ w.length + k = 747 ∧
      (1 ≤ k → s.next_token - 1 ∈ w) := by
  induction k with
  | zero =>
    exact ⟨_, _, rfl, doubled_init, by simp [bug_tokens_length], fun h => absurd h (by omega)⟩
  | succ k ih =>
    obtain ⟨s, w, hit, hd, hlen, _⟩ := ih (by omega)
    have hnext := hd.inv.next
    have hsize := hd.size
    obtain ⟨s', w', hs', hd', hlen', hmem⟩ := doubled_step s w hd (by omega) (by omega)
    refine ⟨s', w', ?_, hd', by omega, fun _ => ?_⟩
    · rw [iterate_succ, hit]
      exact hs'
    · have : s'.next_token = s.next_token + 1 := by
        obtain ⟨best, _, _, rfl⟩ := step_some s s' hs'
        rfl
      rw [this]
      simpa using hmem

/-- After 745 merges the long input has led the loop into a state it cannot
leave. -/
theorem bug_reaches_stuck :
    ∃ s, iterate 745 (init bug_input) = some s ∧ Stuck s ∧ s.merges.length = 745 := by
  obtain ⟨s, w, hit, hd, hlen, hmem⟩ := doubled_iterate 745 (le_refl _)
  have hnext := hd.inv.next
  have hsize := hd.size
  have hm := hmem (by omega)
  refine ⟨s, hit, ?_, by omega⟩
  match w, hlen with
  | [p, q], _ =>
    have hp := hd.inv.tokens p (by rw [hd.tokens]; simp)
    have hq := hd.inv.tokens q (by rw [hd.tokens]; simp)
    refine ⟨p, q, by rw [hd.tokens]; rfl, hp.1, hq.1, ?_⟩
    simp only [List.length_cons, List.length_nil] at hsize
    simp only [List.mem_cons, List.mem_singleton, List.not_mem_nil, or_false] at hm
    rcases hm with hm | hm
    · left; omega
    · right; omega

theorem bug_input_length : bug_input.length = 1494 := by
  simp [bug_input, bug_half]

theorem bug_never_stops (fuel : Nat) : train fuel (init bug_input) = none := by
  obtain ⟨s, hit, hs, _⟩ := bug_reaches_stuck
  exact train_none_of_iterate 745 _ s hit (stuck_forever s hs) fuel

/-- C1 (round trip), the code at the failing input: on the 1494 bytes of
`bug_input` the function `main` never reaches its decoding loop, whatever the
number of iterations allowed, so no decoded output is produced. -/
theorem round_trip_long_input :
    bug_input.length = 1494 ∧ ∀ fuel, main fuel bug_input = none := by
  refine ⟨bug_input_length, fun fuel => ?_⟩
  rw [main, bug_never_stops fuel]
  rfl

/-- C2 (termination), the code at the failing input: on the 1494 bytes of
`bug_input` the training loop does not reach its `break` within any number of
iterations. -/
theorem termination_long_input :
    bug_input ≠ [] ∧ ∀ fuel, train fuel (init bug_input) = none := by
  refine ⟨?_, bug_never_stops⟩
  intro h
  have := bug_input_length
  rw [h] at this
  simp at this

/-- C3 (monotonic shrink), the code at the failing input: after 745 merges on
`bug_input` the loop accepts a merge (a record is appended) that leaves the
token sequence exactly as long as it was. -/
theorem shrink_long_input :
    ∃ s s', iterate 745 (init bug_input) = some s ∧ step s = some s' ∧
      s'.merges.length = s.merges.length + 1 ∧ s'.tokens.length = s.tokens.length := by
  obtain ⟨s, hit, hs, _⟩ := bug_reaches_stuck
  obtain ⟨s', hs', ht, hm⟩ := stuck_step s hs
  exact ⟨s, s', hit, hs', hm, by rw [ht]⟩

/-! ## What holds whenever the loop stops -/

theorem greedy_replace_length_le (A B N : Int) (l : Tokens) :
    (greedy_replace A B N l).length ≤ l.length := by
  induction l using greedy_replace.induct A B N with
  | case1 a b rest hab ih =>
    rw [greedy_replace, if_pos hab]
    simp only [List.length_cons]
    omega
  | case2 a b rest hab ih =>
    rw [greedy_replace, if_neg hab]
    simp only [List.length_cons] at ih ⊢
    omega
  | case3 a => simp [greedy_replace]
  | case4 => simp [greedy_replace]

/-- No iteration makes the token sequence longer. -/
theorem step_length_le (s s' : State) (h : step s = some s') :
    s'.tokens.length ≤ s.tokens.length := by
  obtain ⟨best, _, _, rfl⟩ := step_some s s' h
  simp only [replace_pair_eq]
  exact greedy_replace_length_le _ _ _ _

/-- While no id has reached 1000, an accepted merge shortens the sequence. -/
theorem step_length_lt (s s' : State) (inv : StateInv s) (hn : s.next_token ≤ 1000)
    (h : step s = some s') : s'.tokens.length < s.tokens.length := by
  obtain ⟨best, hb, _, rfl⟩ := step_some s s' h
  obtain ⟨a, b, hab, hv, _⟩ := best_pair s.tokens best hb
  have hm := mem_of_mem_pairs _ _ hab
  have ha := inv.tokens a hm.1
  have hb' := inv.tokens b hm.2
  have hparse := parse_small a b ha.1 (by omega) hb'.1 (by omega)
  rw [← hv] at hparse
  have hfresh : s.next_token ∉ s.tokens := by
    intro hmem
    have := inv.tokens _ hmem
    omega
  simp only [replace_pair_eq, hparse.1, hparse.2]
  have h1 := greedy_replace_length a b s.next_token s.tokens hfresh
  have h2 : 0 < (greedy_replace a b s.next_token s.tokens).count s.next_token :=
    List.count_pos_iff.2 (greedy_replace_new_mem a b s.next_token _ hab)
  omega

theorem decode_token_mono (fuel : Nat) (t : Int) (ms : Merges) (out o : List Byte)
    (h : decode_token fuel t ms out = some o) : decode_token (fuel + 1) t ms out = some o := by
  induction fuel generalizing t out o with
  | zero => simp [decode_token] at h
  | succ f ih =>
    rw [decode_token] at h
    rw [decode_token]
    split
    · rename_i ht
      rw [if_pos ht] at h
      exact h
    · rename_i ht
      rw [if_neg ht] at h
      split
      · rename_i m hm
        simp only [hm] at h
        cases h1 : decode_token f m.left ms out with
        | none => rw [h1] at h; simp at h
        | some o1 =>
          rw [h1] at h
          simp only [Option.some_bind] at h
          rw [ih _ _ _ h1]
          simp only [Option.some_bind]
          exact ih _ _ _ h
      · rename_i hm
        simp only [hm] at h
        exact h

theorem find_merge_append (ms : Merges) (m : Merge) (t : Int) (n : Nat) (hn : n ≤ ms.length) :
    find_merge (ms ++ [m]) t n = find_merge ms t n := by
  induction n with
  | zero => rfl
  | succ i ih =>
    have hi : i < ms.length := by omega
    have hi' : i < (ms ++ [m]).length := by simp; omega
    rw [find_merge, find_merge, List.getD_eq_getElem _ _ hi, List.getD_eq_getElem _ _ hi',
      List.getElem_append_left hi, ih (by omega)]

theorem find_merge_last (ms : Merges) (m : Merge) :
    find_merge (ms ++ [m]) m.token (ms ++ [m]).length = some m := by
  have : (ms ++ [m]).length = ms.length + 1 := by simp
  rw [this, find_merge]
  have hi : ms.length < (ms ++ [m]).length := by simp
  rw [List.getD_eq_getElem _ _ hi]
  simp

/-- A record appended for a fresh id does not change how older ids decode. -/
theorem decode_token_append (ms : Merges) (m : Merge)
    (hrec : ∀ k (h : k < ms.length),
      ms[k].token = 256 + k ∧ ms[k].left < 256 + k ∧ ms[k].right < 256 + k)
    (hm : m.token = 256 + ms.length)
    (fuel : Nat) (t : Int) (out : List Byte) (ht : t < 256 + ms.length) :
    decode_token fuel t (ms ++ [m]) out = decode_token fuel t ms out := by
  induction fuel generalizing t out with
  | zero => rfl
  | succ f ih =>
    rw [decode_token, decode_token]
    split
    · rfl
    · have hlen : (ms ++ [m]).length = ms.length + 1 := by simp
      have hi : ms.length < (ms ++ [m]).length := by simp
      have hne : ¬ ((ms ++ [m]).getD ms.length default).token = t := by
        rw [List.getD_eq_getElem _ _ hi]
        simp only [List.getElem_concat_length]
        omega
      rw [hlen, find_merge, if_neg hne, find_merge_append ms m t _ (le_refl _)]
      cases hf : find_merge ms t ms.length with
      | none => rfl
      | some r =>
        have hr := find_merge_some ms t _ (le_refl _) r hf
        obtain ⟨k, hk, rfl⟩ := List.getElem_of_mem hr.1
        have h3 := hrec k hk
        simp only
        rw [ih _ _ (by omega)]
        cases h1 : decode_token f ms[k].left ms out with
        | none => rfl
        | some o1 =>
          simp only [Option.some_bind]
          exact ih _ _ (by omega)

/-- Decoding the replaced sequence with the new record appended gives what
decoding the old sequence gave. -/
theorem decode_all_replace (ms : Merges) (A B N : Int)
    (hrec : ∀ k (h : k < ms.length),
      ms[k].token = 256 + k ∧ ms[k].left < 256 + k ∧ ms[k].right < 256 + k)
    (hN : N = 256 + ms.length) (fuel : Nat) (l : Tokens) (hl : ∀ t ∈ l, t < N)
    (out o : List Byte) (h : decode_all fuel ms l out = some o) :
    decode_all (fuel + 1) (ms ++ [{ left := A, right := B, token := N }])
      (greedy_replace A B N l) out = some o := by
  have hstep : ∀ (t : Int) (out o1 : List Byte), t < N →
      decode_token fuel t ms out = some o1 →
      decode_token (fuel + 1) t (ms ++ [{ left := A, right := B, token := N }]) out
        = some o1 := by
    intro t out o1 ht h1
    rw [decode_token_append ms _ hrec hN _ _ _ (by omega)]
    exact decode_token_mono _ _ _ _ _ h1
  induction l using greedy_replace.induct A B N generalizing out with
  | case1 a b rest hab ih =>
    rw [greedy_replace, if_pos hab]
    rw [hab.1, hab.2] at h hl
    simp only [decode_all] at h ⊢
    have hA := hl A (List.mem_cons_self _ _)
    have hB := hl B (List.mem_cons_of_mem _ (List.mem_cons_self _ _))
    cases h1 : decode_token fuel A ms out with
    | none => rw [h1] at h; simp at h
    | some o1 =>
      rw [h1] at h
      simp only [Option.some_bind] at h
      cases h2 : decode_token fuel B ms o1 with
      | none => rw [h2] at h; simp at h
      | some o2 =>
        rw [h2] at h
        simp only [Option.some_bind] at h
        have hnew : decode_token (fuel + 1) N
            (ms ++ [{ left := A, right := B, token := N }]) out = some o2 := by
          rw [decode_token, if_neg (by omega)]
          have := find_merge_last ms { left := A, right := B, token := N }
          simp only at this
          rw [this]
          simp only
          rw [decode_token_append ms _ hrec hN _ _ _ (by omega), h1]
          simp only [Option.some_bind]
          rw [decode_token_append ms _ hrec hN _ _ _ (by omega), h2]
        rw [hnew]
        simp only [Option.some_bind]
        exact ih (fun t ht => hl t (List.mem_cons_of_mem _ (List.mem_cons_of_mem _ ht))) _ h
  | case2 a b rest hab ih =>
    rw [greedy_replace, if_neg hab]
    rw [decode_all] at h ⊢
    cases h1 : decode_token fuel a ms out with
    | none => rw [h1] at h; simp at h
    | some o1 =>
      rw [h1] at h
      simp only [Option.some_bind] at h
      rw [hstep a out o1 (hl a (List.mem_cons_self _ _)) h1]
      simp only [Option.some_bind]
      exact ih (fun t ht => hl t (List.mem_cons_of_mem _ ht)) _ h
  | case3 a =>
    simp only [greedy_replace, decode_all] at h ⊢
    cases h1 : decode_token fuel a ms out with
    | none => rw [h1] at h; simp at h
    | some o1 =>
      rw [h1] at h
      rw [hstep a out o1 (hl a (List.mem_cons_self _ _)) h1]
      exact h
  | case4 =>
    simpa [greedy_replace, decode_all] using h

theorem decode_all_init (l : List Byte) (out : List Byte) :
    decode_all 1 [] (l.map (fun b => (b.val : Int))) out = some (out ++ l) := by
  induction l generalizing out with
  | nil => simp [decode_all]
  | cons b rest ih =>
    have hb : ((b.val : Nat) : Int) < 256 := by have := b.isLt; omega
    have hc : to_char (b.val : Int) = b := by
      apply Fin.ext
      simp only [to_char]
      have := b.isLt
      omega
    simp only [List.map_cons, decode_all, decode_token, hb, if_true, hc, Option.some_bind]
    rw [ih]
    simp

/-- The decoding loop gives the input back at every point of training. -/
theorem iterate_round_trip (sb : List Byte) (n : Nat) (s : State)
    (h : iterate n (init sb) = some s) :
    s.merges.length = n ∧ decode_all (n + 1) s.merges s.tokens [] = some sb := by
  induction n generalizing s with
  | zero =>
    simp only [iterate, Option.some.injEq] at h
    subst h
    exact ⟨rfl, by simpa [init] using decode_all_init sb []⟩
  | succ n ih =>
    rw [iterate_succ] at h
    cases h1 : iterate n (init sb) with
    | none => rw [h1] at h; simp at h
    | some s1 =>
      rw [h1] at h
      simp only [Option.some_bind] at h
      obtain ⟨hlen, hdec⟩ := ih s1 h1
      have inv := iterate_inv n _ s1 (init_inv sb) h1
      obtain ⟨best, _, _, rfl⟩ := step_some s1 s h
      refine ⟨by simp [hlen], ?_⟩
      simp only [replace_pair_eq]
      apply decode_all_replace s1.merges _ _ _ _ inv.next (n + 1) s1.tokens
        (fun t ht => (inv.tokens t ht).2) [] sb hdec
      intro k hk
      have := inv.record k hk
      exact ⟨this.1, this.2.1.2, this.2.2.2⟩

theorem decode_all_mono (fuel : Nat) (ms : Merges) (l : Tokens) (out o : List Byte)
    (h : decode_all fuel ms l out = some o) : decode_all (fuel + 1) ms l out = some o := by
  induction l generalizing out with
  | nil => simpa [decode_all] using h
  | cons t rest ih =>
    rw [decode_all] at h ⊢
    cases h1 : decode_token fuel t ms out with
    | none => rw [h1] at h; simp at h
    | some o1 =>
      rw [h1] at h
      simp only [Option.some_bind] at h
      rw [decode_token_mono _ _ _ _ _ h1]
      simp only [Option.some_bind]
      exact ih _ h

theorem decode_all_mono_le (f f' : Nat) (hf : f ≤ f') (ms : Merges) (l : Tokens)
    (out o : List Byte) (h : decode_all f ms l out = some o) :
    decode_all f' ms l out = some o := by
  induction f' with
  | zero =>
    have : f = 0 := by omega
    subst this
    exact h
  | succ k ih =>
    by_cases hk : f = k + 1
    · subst hk; exact h
    · exact decode_all_mono _ _ _ _ _ (ih (by omega))

/-- Whenever the training loop stops, `main` prints the token count, the merge
counter, the number of merges and, as decoded text, exactly the bytes of the
input. -/
theorem main_round_trip (sb : List Byte) (fuel : Nat) (s : State)
    (h : train fuel (init sb) = some s) :
    main fuel sb = some { token_count := s.tokens.length, vocab_size := s.next_token,
                          merge_count := s.merges.length, decoded := sb } := by
  obtain ⟨_, n, hn, hit⟩ := train_stops fuel _ s h
  obtain ⟨_, hdec⟩ := iterate_round_trip sb n s hit
  have := decode_all_mono_le (n + 1) fuel (by omega) _ _ _ _ hdec
  simp [main, h, this]

theorem keys_of_length (l : Tokens) : (keys_of l).length = l.length - 1 := by
  simp [keys_of]

/-- A merge is accepted only in a sequence of at least three tokens. -/
theorem step_some_length (s s' : State) (h : step s = some s') : 3 ≤ s.tokens.length := by
  obtain ⟨best, hb, hf, _⟩ := step_some s s' h
  obtain ⟨a, b, _, _, hc⟩ := best_pair s.tokens best hb
  have := List.count_le_length (pair_key a b) (keys_of s.tokens)
  rw [keys_of_length] at this
  omega

theorem train_stops_of_measure (L : Nat) (s : State) (inv : StateInv s) (hL : s.tokens.length ≤ L)
    (hs : s.tokens.length + s.merges.length ≤ 747) :
    ∃ fuel s', train fuel s = some s' := by
  induction L generalizing s with
  | zero =>
    refine ⟨1, s, ?_⟩
    cases h1 : step s with
    | none => simp [train, h1]
    | some s1 =>
      have := step_some_length s s1 h1
      omega
  | succ L ih =>
    cases h1 : step s with
    | none => exact ⟨1, s, by simp [train, h1]⟩
    | some s1 =>
      have h3 := step_some_length s s1 h1
      have hn := inv.next
      have hlt := step_length_lt s s1 inv (by omega) h1
      have hm : s1.merges.length = s.merges.length + 1 := by
        obtain ⟨best, _, _, rfl⟩ := step_some s s1 h1
        simp
      obtain ⟨fuel, s', hf⟩ := ih s1 (step_inv s s1 inv h1) (by omega) (by omega)
      exact ⟨fuel + 1, s', by rw [train, h1]; exact hf⟩

/-- On an input of at most 747 bytes the training loop stops. -/
theorem train_stops_short (sb : List Byte) (h : sb.length ≤ 747) :
    ∃ fuel s, train fuel (init sb) = some s :=
  train_stops_of_measure sb.length (init sb) (init_inv sb) (by simp [init])
    (by simpa [init] using h)

/-! ## Further properties of the training state and of the key -/

/-- C11 (token-id invariant): in every token sequence reached during training
each token id lies in `[0, 256)` or is the produced id of a record that is in
the merge history at that point. -/
theorem token_id_invariant (sb : List Byte) (n : Nat) (s : State)
    (h : iterate n (init sb) = some s) (t : Int) (ht : t ∈ s.tokens) :
    (0 ≤ t ∧ t < 256) ∨ ∃ m ∈ s.merges, m.token = t := by
  have inv := iterate_inv n _ s (init_inv sb) h
  have hb := inv.tokens t ht
  have hn := inv.next
  by_cases hs : t < 256
  · exact Or.inl ⟨hb.1, hs⟩
  · right
    have hk : (t - 256).toNat < s.merges.length := by omega
    refine ⟨s.merges[(t - 256).toNat], List.getElem_mem hk, ?_⟩
    rw [(inv.record _ hk).1]
    omega

theorem token_id_invariant_witness :
    iterate 2 (init ababab) = some ababab_final ∧ (257 : Int) ∈ ababab_final.tokens ∧
      ((0 ≤ (257 : Int) ∧ (257 : Int) < 256) ∨ ∃ m ∈ ababab_final.merges, m.token = 257) :=
  ⟨by decide, by decide, token_id_invariant ababab 2 ababab_final (by decide) 257 (by decide)⟩

/-- C13 (vocabulary size): on every input on which training stops, `main`
reports as vocabulary size the final merge counter, which is `256` plus the
number of records of the merge history, and as merge count that number of
records. -/
theorem vocabulary_size (sb : List Byte) (fuel : Nat) (s : State)
    (h : train fuel (init sb) = some s) :
    ∃ out, main fuel sb = some out ∧ out.vocab_size = s.next_token ∧
      out.vocab_size = 256 + s.merges.length ∧ out.merge_count = s.merges.length := by
  obtain ⟨_, n, _, hit⟩ := train_stops fuel _ s h
  have inv := iterate_inv n _ s (init_inv sb) hit
  exact ⟨_, main_round_trip sb fuel s h, rfl, inv.next, rfl⟩

theorem vocabulary_size_witness :
    train 3 (init ababab) = some ababab_final ∧
      ∃ out, main 3 ababab = some out ∧ out.vocab_size = ababab_final.next_token ∧
        out.vocab_size = 256 + ababab_final.merges.length ∧
        out.merge_count = ababab_final.merges.length :=
  ⟨by decide, vocabulary_size ababab 3 ababab_final (by decide)⟩

/-- C15 (pair key round trip): for two ids `x`, `y` of `[0, 999]` the key is the
six digits of `x` and `y`, three each with leading zeros; reading characters
0-2 and 3-5 back with `atoi` gives `(x, y)`, and no other pair of ids of
`[0, 999]` has the same key. -/
theorem pair_key_round_trip (x y : Int) (hx0 : 0 ≤ x) (hx : x ≤ 999) (hy0 : 0 ≤ y)
    (hy : y ≤ 999) :
    pair_key x y = [48 + x.toNat / 100, 48 + x.toNat / 10 % 10, 48 + x.toNat % 10,
        48 + y.toNat / 100, 48 + y.toNat / 10 % 10, 48 + y.toNat % 10] ∧
      atoi ((pair_key x y).take 3) = x ∧ atoi (((pair_key x y).drop 3).take 3) = y ∧
      ∀ x' y' : Int, 0 ≤ x' → x' ≤ 999 → 0 ≤ y' → y' ≤ 999 →
        pair_key x' y' = pair_key x y → x' = x ∧ y' = y :=
  ⟨pair_key_small x y hx0 hx hy0 hy, (parse_small x y hx0 hx hy0 hy).1,
    (parse_small x y hx0 hx hy0 hy).2,
    fun x' y' _ _ _ _ e => pair_key_inj_small x' y' x y hx0 hx hy0 hy e⟩

theorem pair_key_round_trip_witness :
    pair_key 7 256 = [48, 48, 55, 50, 53, 54] ∧
      atoi ((pair_key 7 256).take 3) = 7 ∧ atoi (((pair_key 7 256).drop 3).take 3) = 256 :=
  ⟨(pair_key_round_trip 7 256 (by decide) (by decide) (by decide) (by decide)).1,
    (pair_key_round_trip 7 256 (by decide) (by decide) (by decide) (by decide)).2.1,
    (pair_key_round_trip 7 256 (by decide) (by decide) (by decide) (by decide)).2.2.1⟩

/-- C16 (pair key corruption): for two non-negative ids `x`, `y` of which one is
`1000` or more, the pair read back from the first three and the next three
characters of the key differs from `(x, y)`; and the different pairs
`(100, 1234)` and `(1001, 234)` have the same key. -/
theorem pair_key_corruption :
    (∀ x y : Int, 0 ≤ x → 0 ≤ y → (1000 ≤ x ∨ 1000 ≤ y) →
      (atoi ((pair_key x y).take 3), atoi (((pair_key x y).drop 3).take 3)) ≠ (x, y)) ∧
    pair_key 100 1234 = pair_key 1001 234 := by
  refine ⟨?_, by decide⟩
  intro x y hx hy hbig e
  have hb := parse_bound x y hx hy
  simp only [Prod.mk.injEq] at e
  omega

theorem pair_key_corruption_witness :
    pair_key 1000 5 = [49, 48, 48, 48, 48, 48, 53] ∧
      (atoi ((pair_key 1000 5).take 3), atoi (((pair_key 1000 5).drop 3).take 3)) ≠
        ((1000 : Int), (5 : Int)) :=
  ⟨by decide, pair_key_corruption.1 1000 5 (by decide) (by decide) (Or.inl (by decide))⟩

/-- After the replacement the pair `(A, B)` is nowhere adjacent, when the new
id is neither `A` nor `B`. -/
theorem greedy_replace_no_pair (A B N : Int) (hA : N ≠ A) (hB : N ≠ B) (l : Tokens) :
    (A, B) ∉ pairs_of (greedy_replace A B N l) := by
  induction l using greedy_replace.induct A B N with
  | case1 a b rest hab ih =>
    rw [greedy_replace, if_pos hab]
    cases hg : greedy_replace A B N rest with
    | nil => simp [pairs_of_singleton]
    | cons c g =>
      rw [hg] at ih
      rw [pairs_of_cons_cons]
      intro hm
      rcases List.mem_cons.1 hm with e | hm
      · simp only [Prod.mk.injEq] at e
        exact hA e.1.symm
      · exact ih hm
  | case2 a b rest hab ih =>
    rw [greedy_replace, if_neg hab]
    cases hg : greedy_replace A B N (b :: rest) with
    | nil => simp [pairs_of_singleton]
    | cons c g =>
      rw [hg] at ih
      have hh := greedy_replace_head A B N (b :: rest)
      rw [hg] at hh
      simp only [List.head?_cons, Option.some.injEq] at hh
      rw [pairs_of_cons_cons]
      intro hm
      rcases List.mem_cons.1 hm with e | hm
      · simp only [Prod.mk.injEq] at e
        rcases hh with hh | hh
        · exact hab ⟨e.1.symm, by rw [← hh]; exact e.2.symm⟩
        · exact hB (by rw [← hh]; exact e.2.symm)
      · exact ih hm
  | case3 a => simp [greedy_replace, pairs_of_singleton]
  | case4 => simp [greedy_replace, pairs_of_nil]

/-- C20 (the merged pair is gone): for every token sequence, pair `(A, B)` and
new id `N` different from `A` and from `B`, the sequence the replace loop builds
has no index `i` with `out[i] = A` and `out[i+1] = B`, also when `A = B`. -/
theorem merged_pair_gone (tokens : Tokens) (A B N : Int) (hA : N ≠ A) (hB : N ≠ B)
    (i : Nat) (hi : i + 1 < (replace_pair tokens A B N).length) :
    ¬ ((replace_pair tokens A B N).getD i 0 = A ∧
        (replace_pair tokens A B N).getD (i + 1) 0 = B) := by
  intro h
  apply greedy_replace_no_pair A B N hA hB tokens
  rw [← replace_pair_eq, ← range_pairs, List.mem_map]
  exact ⟨i, List.mem_range.2 (by omega), by rw [h.1, h.2]⟩

theorem merged_pair_gone_witness :
    replace_pair [97, 97, 97, 97, 97] 97 97 256 = [256, 256, 97] ∧
      ¬ ((replace_pair [97, 97, 97, 97, 97] 97 97 256).getD 1 0 = 97 ∧
          (replace_pair [97, 97, 97, 97, 97] 97 97 256).getD (1 + 1) 0 = 97) :=
  ⟨by decide, merged_pair_gone [97, 97, 97, 97, 97] 97 97 256 (by decide) (by decide) 1
    (by decide)⟩

/-! ## Inputs without a repeated pair -/

/-- The tokens of an input are byte values. -/
theorem init_tokens_small (sb : List Byte) : ∀ t ∈ (init sb).tokens, 0 ≤ t ∧ t ≤ 999 := by
  intro t ht
  have := (init_inv sb).tokens t ht
  have hn : (init sb).next_token = 256 := rfl
  omega

/-- With all ids in `[0, 999]` and no pair at two positions the loop breaks. -/
theorem step_none_of_no_repeat (s : State) (hs : ∀ t ∈ s.tokens, 0 ≤ t ∧ t ≤ 999)
    (h : ∀ x y : Int, pair_occurrences s.tokens x y ≤ 1) : step s = none := by
  cases h1 : step s with
  | none => rfl
  | some s' =>
    obtain ⟨best, hb, hf, _⟩ := step_some s s' h1
    obtain ⟨a, b, _, _, hc⟩ := best_pair s.tokens best hb
    rw [count_key_eq _ a b hs, ← pair_occurrences_eq] at hc
    have := h a b
    omega

/-- C12 (input without a repeated pair): for every input in which no ordered
adjacent pair occurs more than once (the empty input and a single byte
included), the loop breaks right after the first counter build: no merge is
recorded, the final token sequence is the input bytes, `main` reports the
input length as token count, `256` and `0` merges and decodes the input; for
the empty input the decoded output is empty. -/
theorem no_repeat_input (sb : List Byte)
    (h : ∀ x y : Int, pair_occurrences (sb.map (fun b => (b.val : Int))) x y ≤ 1)
    (fuel : Nat) :
    step (init sb) = none ∧
      train (fuel + 1) (init sb) = some (init sb) ∧
      (init sb).merges = [] ∧ (init sb).tokens = sb.map (fun b => (b.val : Int)) ∧
      main (fuel + 1) sb = some { token_count := sb.length, vocab_size := 256,
                                   merge_count := 0, decoded := sb } ∧
      main (fuel + 1) [] = some { token_count := 0, vocab_size := 256,
                                   merge_count := 0, decoded := [] } := by
  have hs : step (init sb) = none := step_none_of_no_repeat _ (init_tokens_small sb) h
  have ht : train (fuel + 1) (init sb) = some (init sb) := by rw [train, hs]
  have he : step (init []) = none :=
    step_none_of_no_repeat _ (init_tokens_small []) (fun x y => by simp [init, pair_occurrences])
  have hte : train (fuel + 1) (init []) = some (init []) := by rw [train, he]
  refine ⟨hs, ht, rfl, rfl, ?_, ?_⟩
  · have := main_round_trip sb (fuel + 1) _ ht
    simpa [init] using this
  · have := main_round_trip [] (fuel + 1) _ hte
    simpa [init] using this

theorem no_repeat_input_witness :
    (∀ x y : Int, pair_occurrences (([97, 98, 99] : List Byte).map (fun b => (b.val : Int))) x y
        ≤ 1) ∧
      main 1 [97, 98, 99] = some { token_count := 3, vocab_size := 256, merge_count := 0,
                                   decoded := [97, 98, 99] } :=
  have hw : ∀ x y : Int,
      pair_occurrences (([97, 98, 99] : List Byte).map (fun b => (b.val : Int))) x y ≤ 1 := by
    intro x y
    rw [pair_occurrences_eq]
    show List.count (x, y) [((97 : Int), (98 : Int)), ((98 : Int), (99 : Int))] ≤ 1
    simp only [List.count_cons, List.count_nil]
    by_cases h1 : ((97 : Int), (98 : Int)) = (x, y)
    · have h2 : ¬ (((98 : Int), (99 : Int)) = (x, y)) := by
        rw [← h1]; decide
      simp [h1, h2]
    · simp [h1]
      split <;> omega
  ⟨hw, (no_repeat_input [97, 98, 99] hw 0).2.2.2.2.1⟩

/-! ## The program around the training loop -/

/-- C14 (missing file), the code at the failing input: with one argument that
names a file `fopen` cannot open, `read_file` writes its diagnostic and returns
`false`, `main` does not look at the result, trains on the empty corpus, prints
the report of an empty run and ends with exit status `0`. -/
theorem missing_file_run :
    chaos_read_file none [] = (false, [], [Diagnostic.cannot_open]) ∧
      ∀ fuel, program 2 none (fuel + 1) =
        some { exit_status := 0, diagnostics := [Diagnostic.cannot_open],
               printed := some { token_count := 0, vocab_size := 256, merge_count := 0,
                                 decoded := [] } } := by
  refine ⟨rfl, fun fuel => ?_⟩
  have he : step (init []) = none :=
    step_none_of_no_repeat _ (init_tokens_small []) (fun x y => by simp [init, pair_occurrences])
  have hte : train (fuel + 1) (init []) = some (init []) := by rw [train, he]
  have := main_round_trip [] (fuel + 1) _ hte
  simp only [init, List.map_nil, List.length_nil] at this
  simp [program, chaos_read_file, this]

/-- The sibling path: a wrong number of arguments ends the program with exit
status `1` before anything is read or trained. -/
theorem usage_run (argc : Nat) (file : Option (List Byte)) (fuel : Nat) (h : argc ≠ 2) :
    program argc file fuel =
      some { exit_status := 1, diagnostics := [Diagnostic.usage], printed := none } := by
  simp [program, h]

/-! ## Termination of the decoder and the direction of its lookup -/

theorem countP_lt_of_witness (ms : Merges) (p q : Merge → Bool)
    (hpq : ∀ m ∈ ms, p m = true → q m = true) (m : Merge) (hm : m ∈ ms)
    (hq : q m = true) (hp : p m = false) : ms.countP p < ms.countP q := by
  induction ms with
  | nil => simp at hm
  | cons x rest ih =>
    have hrest : rest.countP p ≤ rest.countP q :=
      List.countP_mono_left (fun y hy => hpq y (List.mem_cons_of_mem _ hy))
    rcases List.mem_cons.1 hm with rfl | hm'
    · rw [List.countP_cons_of_pos _ _ hq, List.countP_cons_of_neg _ _ (by simp [hp])]
      omega
    · have := ih (fun y hy => hpq y (List.mem_cons_of_mem _ hy)) hm'
      by_cases hx : p x = true
      · rw [List.countP_cons_of_pos _ _ hx,
          List.countP_cons_of_pos _ _ (hpq x (List.mem_cons_self _ _) hx)]
        omega
      · rw [List.countP_cons_of_neg _ _ hx]
        by_cases hqx : q x = true
        · rw [List.countP_cons_of_pos _ _ hqx]; omega
        · rw [List.countP_cons_of_neg _ _ hqx]; exact this

/-- With every record's two ids below its produced id, `decode_token` returns
as soon as the fuel exceeds the number of records with a produced id up to the
token. -/
theorem decode_token_returns (ms : Merges)
    (h : ∀ m ∈ ms, m.left < m.token ∧ m.right < m.token)
    (fuel : Nat) (t : Int) (out : List Byte)
    (hf : ms.countP (fun m => decide (m.token ≤ t)) < fuel) :
    ∃ o, decode_token fuel t ms out = some o := by
  induction fuel generalizing t out with
  | zero => omega
  | succ f ih =>
    rw [decode_token]
    split
    · exact ⟨_, rfl⟩
    · cases hfm : find_merge ms t ms.length with
      | none => exact ⟨_, rfl⟩
      | some m =>
        have hm := find_merge_some ms t _ (le_refl _) m hfm
        have hlr := h m hm.1
        have hdrop : ∀ v : Int, v < m.token →
            ms.countP (fun r => decide (r.token ≤ v)) < f := by
          intro v hv
          have := countP_lt_of_witness ms (fun r => decide (r.token ≤ v))
            (fun r => decide (r.token ≤ t))
            (fun r _ hr => by
              simp only [decide_eq_true_eq] at hr ⊢
              omega)
            m hm.1 (by simp only [decide_eq_true_eq]; omega)
            (by simp only [decide_eq_false_iff_not]; omega)
          omega
        obtain ⟨o1, h1⟩ := ih m.left out (hdrop _ hlr.1)
        obtain ⟨o2, h2⟩ := ih m.right o1 (hdrop _ hlr.2)
        exact ⟨o2, by simp only [h1, Option.some_bind, h2]⟩

/-- C19 (decode termination): for every merge history in which the left and the
right id of each record are non-negative and strictly smaller than its produced
id, `decode_token` returns for every token id and every buffer within a
recursion depth of the length of the history plus one. -/
theorem decode_termination (ms : Merges)
    (h : ∀ m ∈ ms, (0 ≤ m.left ∧ m.left < m.token) ∧ (0 ≤ m.right ∧ m.right < m.token))
    (t : Int) (out : List Byte) :
    ∃ o, decode_token (ms.length + 1) t ms out = some o :=
  decode_token_returns ms (fun m hm => ⟨(h m hm).1.2, (h m hm).2.2⟩) _ t out
    (Nat.lt_succ_of_le (List.countP_le_length _))

theorem decode_termination_witness :
    (∀ m ∈ ababab_final.merges,
        (0 ≤ m.left ∧ m.left < m.token) ∧ (0 ≤ m.right ∧ m.right < m.token)) ∧
      ∃ o, decode_token (ababab_final.merges.length + 1) 257 ababab_final.merges [] = some o :=
  ⟨by decide, decode_termination ababab_final.merges (by decide) 257 []⟩

/-- With pairwise different produced ids the backward scan of `decode_token`
and the forward scan find the same record. -/
theorem find_merge_forward (ms : Merges) (hn : (ms.map (fun r => r.token)).Nodup) (t : Int) :
    find_merge ms t ms.length = ms.find? (fun m => decide (m.token = t)) := by
  cases hf : ms.find? (fun m => decide (m.token = t)) with
  | none =>
    rw [List.find?_eq_none] at hf
    exact find_merge_absent ms t (fun m hm => by simpa using hf m hm)
  | some m =>
    have h1 := List.mem_of_find?_eq_some hf
    have h2 := List.find?_some hf
    simp only [decide_eq_true_eq] at h2
    rw [← h2]
    exact find_merge_unique ms m h1 hn

theorem decode_forward_eq (ms : Merges) (hn : (ms.map (fun r => r.token)).Nodup)
    (fuel : Nat) (t : Int) (out : List Byte) :
    decode_token fuel t ms out = decode_forward fuel t ms out := by
  induction fuel generalizing t out with
  | zero => rfl
  | succ f ih =>
    rw [decode_token, decode_forward, find_merge_forward ms hn t]
    split
    · rfl
    · cases ms.find? (fun m => decide (m.token = t)) with
      | none => rfl
      | some m =>
        simp only
        rw [ih m.left out]
        cases decode_forward f m.left ms out with
        | none => rfl
        | some o1 =>
          simp only [Option.some_bind]
          exact ih m.right o1

/-- C18 (lookup direction): for every merge history with pairwise different
produced ids whose left and right ids are each smaller than the record's
produced id, and every token id, `decode_token` as written (history scanned
from the last record to the first) and the decoder that scans from the first
record to the last return, and return the same bytes; they also agree at every
bound on the recursion depth. -/
theorem lookup_direction (ms : Merges) (hn : (ms.map (fun r => r.token)).Nodup)
    (h : ∀ m ∈ ms, m.left < m.token ∧ m.right < m.token) (t : Int) (out : List Byte) :
    (∃ o, decode_token (ms.length + 1) t ms out = some o ∧
        decode_forward (ms.length + 1) t ms out = some o) ∧
      ∀ fuel, decode_token fuel t ms out = decode_forward fuel t ms out := by
  obtain ⟨o, ho⟩ := decode_token_returns ms h _ t out
    (Nat.lt_succ_of_le (List.countP_le_length _))
  exact ⟨⟨o, ho, by rw [← decode_forward_eq ms hn]; exact ho⟩,
    fun fuel => decode_forward_eq ms hn fuel t out⟩

theorem lookup_direction_witness :
    ((ababab_final.merges.map (fun r => r.token)).Nodup ∧
        ∀ m ∈ ababab_final.merges, m.left < m.token ∧ m.right < m.token) ∧
      ∃ o, decode_token (ababab_final.merges.length + 1) 257 ababab_final.merges [] = some o ∧
        decode_forward (ababab_final.merges.length + 1) 257 ababab_final.merges [] = some o :=
  ⟨⟨by decide, by decide⟩,
    (lookup_direction ababab_final.merges (by decide) (by decide) 257 []).1⟩

/-! ## The order of the selection loop -/

theorem first_index_append_of_mem (k : CStr) (l1 l2 : List CStr) (h : k ∈ l1) :
    first_index k (l1 ++ l2) = first_index k l1 := by
  induction l1 with
  | nil => simp at h
  | cons x rest ih =>
    by_cases hx : x = k
    · simp [first_index, hx]
    · have : k ∈ rest := by
        rcases List.mem_cons.1 h with e | e
        · exact absurd e.symm hx
        · exact e
      simp [first_index, hx, ih this]

theorem first_index_lt (k : CStr) (l : List CStr) (h : k ∈ l) : first_index k l < l.length := by
  induction l with
  | nil => simp at h
  | cons x rest ih =>
    by_cases hx : x = k
    · simp [first_index, hx]
    · have : k ∈ rest := by
        rcases List.mem_cons.1 h with e | e
        · exact absurd e.symm hx
        · exact e
      have := ih this
      simp [first_index, hx]
      omega

theorem first_index_snoc (k : CStr) (l : List CStr) (h : k ∉ l) :
    first_index k (l ++ [k]) = l.length := by
  induction l with
  | nil => simp [first_index]
  | cons x rest ih =>
    have hx : x ≠ k := fun e => h (by rw [e]; exact List.mem_cons_self _ _)
    have hr : k ∉ rest := fun e => h (List.mem_cons_of_mem _ e)
    simp [first_index, hx, ih hr]

/-- The selection loop returns the first entry, in its order of visit, among
those of greatest frequency. -/
theorem foldl_pick_first (l : List chaos_KV) (hl : l ≠ []) :
    ∃ best pre post, l.foldl pick none = some best ∧ l = pre ++ best :: post ∧
      (∀ e ∈ pre, e.freq < best.freq) ∧ (∀ e ∈ post, e.freq ≤ best.freq) := by
  induction l using List.reverseRecOn with
  | nil => exact absurd rfl hl
  | append_singleton l x ih =>
    rw [List.foldl_append, List.foldl_cons, List.foldl_nil]
    by_cases hnil : l = []
    · subst hnil
      exact ⟨x, [], [], rfl, rfl, by simp, by simp⟩
    · obtain ⟨b, pre, post, hb, hsplit, hpre, hpost⟩ := ih hnil
      rw [hb]
      by_cases hgt : x.freq > b.freq
      · refine ⟨x, l, [], by simp [pick, hgt], rfl, ?_, by simp⟩
        intro e he
        rw [hsplit] at he
        rcases List.mem_append.1 he with he | he
        · have := hpre e he; omega
        · rcases List.mem_cons.1 he with rfl | he
          · exact hgt
          · have := hpost e he; omega
      · refine ⟨b, pre, post ++ [x], by simp [pick, hgt], by rw [hsplit]; simp, hpre, ?_⟩
        intro e he
        rcases List.mem_append.1 he with he | he
        · exact hpost e he
        · simp only [List.mem_singleton] at he
          subst he
          omega

/-- One `table_append` on sixteen well-formed buckets, spelled out. -/
theorem table_append_eq (t : chaos_Table) (k : CStr) (hlen : t.length = 16)
    (hkey : ∀ i, ∀ e ∈ t.getD i [], e.key = chaos_hash e.value 6)
    (hnodup : ∀ i, ((t.getD i []).map (fun e => e.value)).Nodup) :
    ((∀ e ∈ t.getD (chaos_hash k 6 % 16) [], e.value ≠ k) ∧
        chaos_table_append t k 6 = t.set (chaos_hash k 6 % 16)
          (t.getD (chaos_hash k 6 % 16) [] ++
            [{ key := chaos_hash k 6, value := k, freq := 1 }])) ∨
      ((∃ e ∈ t.getD (chaos_hash k 6 % 16) [], e.value = k) ∧
        chaos_table_append t k 6 = t.set (chaos_hash k 6 % 16)
          (bump_value k (t.getD (chaos_hash k 6 % 16) []))) := by
  have hne : t.isEmpty = false := by
    cases t with
    | nil => simp at hlen
    | cons _ _ => rfl
  cases hf : find_kv (chaos_hash k 6) k (t.getD (chaos_hash k 6 % 16) []) with
  | none =>
    left
    refine ⟨(find_kv_eq_none k _ (hkey _)).1 hf, ?_⟩
    rw [chaos_table_append]
    simp only [hne, Bool.false_eq_true, if_false, hlen, hf]
  | some e0 =>
    right
    have h0 := find_kv_some_value _ _ _ _ hf
    refine ⟨⟨e0, h0.1, h0.2.2⟩, ?_⟩
    rw [chaos_table_append]
    simp only [hne, Bool.false_eq_true, if_false, hlen, hf]
    rw [bump_kv_eq k _ (hkey _) (hnodup _)]

theorem bump_value_values (k : CStr) (b : chaos_Bucket) :
    (bump_value k b).map (fun e => e.value) = b.map (fun e => e.value) := by
  simp only [bump_value, List.map_map]
  apply List.map_congr_left
  intro x _
  by_cases hv : x.value = k <;> simp [hv]

theorem table_append_order (ks : List CStr) (t : chaos_Table) (k : CStr)
    (hlen : t.length = 16)
    (hentry : ∀ i, ∀ e ∈ t.getD i [],
      e.key = chaos_hash e.value 6 ∧ e.key % 16 = i ∧ e.freq = ks.count e.value ∧ 0 < e.freq)
    (hnodup : ∀ i, ((t.getD i []).map (fun e => e.value)).Nodup)
    (hpresent : ∀ k ∈ ks, ∃ e ∈ t.getD (chaos_hash k 6 % 16) [], e.value = k)
    (hord : ∀ i, ((t.getD i []).map (fun e => first_index e.value ks)).Pairwise
      (fun a b => a < b)) (i : Nat) :
    (((chaos_table_append t k 6).getD i []).map
      (fun e => first_index e.value (ks ++ [k]))).Pairwise (fun a b => a < b) := by
  have hidx : chaos_hash k 6 % 16 < t.length := by rw [hlen]; exact Nat.mod_lt _ (by norm_num)
  have hmem : ∀ j, ∀ e ∈ t.getD j [], e.value ∈ ks := by
    intro j e he
    have := hentry j e he
    rw [← List.count_pos_iff, ← this.2.2.1]
    exact this.2.2.2
  have hold : ∀ j, (t.getD j []).map (fun e => first_index e.value (ks ++ [k])) =
      (t.getD j []).map (fun e => first_index e.value ks) := by
    intro j
    apply List.map_congr_left
    intro e he
    exact first_index_append_of_mem _ _ _ (hmem j e he)
  rcases table_append_eq t k hlen (fun j e he => (hentry j e he).1) hnodup with
    ⟨hno, heq⟩ | ⟨_, heq⟩
  · rw [heq, getD_set_bucket t _ i _ hidx]
    split
    · have hk : k ∉ ks := by
        intro hk
        obtain ⟨e, he, hv⟩ := hpresent k hk
        exact hno e he hv
      rw [List.map_append, List.pairwise_append, hold]
      refine ⟨hord _, by simp, ?_⟩
      intro a ha b hb
      simp only [List.map_cons, List.map_nil, List.mem_singleton] at hb
      obtain ⟨e, he, rfl⟩ := List.mem_map.1 ha
      rw [hb, first_index_snoc k ks hk]
      exact first_index_lt _ _ (hmem _ e he)
    · rw [hold]; exact hord i
  · rw [heq, getD_set_bucket t _ i _ hidx]
    split
    · have : (bump_value k (t.getD (chaos_hash k 6 % 16) [])).map
            (fun e => first_index e.value (ks ++ [k])) =
          ((bump_value k (t.getD (chaos_hash k 6 % 16) [])).map (fun e => e.value)).map
            (fun v => first_index v (ks ++ [k])) := by
        rw [List.map_map]; rfl
      rw [this, bump_value_values, List.map_map]
      have := hold (chaos_hash k 6 % 16)
      simp only [Function.comp_def]
      rw [this]
      exact hord _
    · rw [hold]; exact hord i

/-- In every bucket the entries stand in the order in which their strings were
first appended. -/
theorem table_of_order (ks : List CStr) (i : Nat) :
    (((table_of ks).getD i []).map (fun e => first_index e.value ks)).Pairwise
      (fun a b => a < b) := by
  induction ks using List.reverseRecOn generalizing i with
  | nil => simp [table_of]
  | append_singleton ks k ih =>
    rw [table_of_snoc]
    have inv := table_of_inv ks
    by_cases hks : ks = []
    · rw [inv.empty hks, table_append_nil]
      subst hks
      apply table_append_order [] _ k (by simp)
      · intro j e he
        rw [getD_replicate_nil] at he
        simp at he
      · intro j
        rw [getD_replicate_nil]
        simp
      · simp
      · intro j
        rw [getD_replicate_nil]
        simp
    · exact table_append_order ks _ k (inv.size hks) inv.entry inv.nodup inv.present ih i

/-- C17 (best-pair selection): the counter of a sequence of length 0 or 1 is
empty and nothing is selected; for a longer sequence the selected entry has a
frequency no other entry exceeds and is the first entry of that frequency in
the order of visit, which goes through the buckets by increasing index, where
an entry stands in the bucket numbered by the `djb33` hash of the first six
characters of its key modulo 16, and through a bucket in the order in which the
keys were first inserted; the selection rule holds for every table with an
entry.  On the bytes `abcabcxyxy` three pairs occur twice: the entry of
`(98, 99)` is selected, because its bucket 4 comes before bucket 10 of
`(97, 98)`, whose key was inserted first, and because in bucket 4 it was
inserted before `(120, 121)`. -/
theorem best_pair_selection (tokens : Tokens) :
    (tokens.length ≤ 1 →
      (count_pairs tokens).flatten = [] ∧ select_best (count_pairs tokens) = none) ∧
    (2 ≤ tokens.length →
      ∃ best pre post, select_best (count_pairs tokens) = some best ∧
        (count_pairs tokens).flatten = pre ++ best :: post ∧
        (∀ e ∈ pre, e.freq < best.freq) ∧ (∀ e ∈ post, e.freq ≤ best.freq)) ∧
    (∀ t : chaos_Table, t.flatten ≠ [] →
      ∃ best pre post, select_best t = some best ∧ t.flatten = pre ++ best :: post ∧
        (∀ e ∈ pre, e.freq < best.freq) ∧ (∀ e ∈ post, e.freq ≤ best.freq)) ∧
    (∀ i, ∀ e ∈ (count_pairs tokens).getD i [], djb33_hash e.value 6 % 16 = i) ∧
    (∀ i, (((count_pairs tokens).getD i []).map
      (fun e => first_index e.value (keys_of tokens))).Pairwise (fun a b => a < b)) ∧
    (select_best (count_pairs (init abcabcxyxy).tokens) =
        some { key := 3753621604, value := pair_key 98 99, freq := 2 } ∧
      (count_pairs (init abcabcxyxy).tokens).getD 4 [] =
        [{ key := 3753621604, value := pair_key 98 99, freq := 2 },
         { key := 3782513508, value := pair_key 120 121, freq := 2 },
         { key := 3782477508, value := pair_key 121 120, freq := 1 }] ∧
      (count_pairs (init abcabcxyxy).tokens).getD 10 [] =
        [{ key := 3753942218, value := pair_key 97 98, freq := 2 }]) := by
  refine ⟨?_, ?_, fun t ht => by rw [select_best_flatten]; exact foldl_pick_first _ ht, ?_, ?_,
    by decide, by decide, by decide⟩
  · intro h
    have hk : keys_of tokens = [] := by
      have := keys_of_length tokens
      exact List.eq_nil_of_length_eq_zero (by omega)
    rw [count_pairs_eq, hk]
    exact ⟨rfl, rfl⟩
  · intro h
    have hne : (count_pairs tokens).flatten ≠ [] := by
      have hl := keys_of_length tokens
      obtain ⟨k, hk⟩ : ∃ k, k ∈ keys_of tokens :=
        List.exists_mem_of_length_pos (by omega)
      obtain ⟨b, hb, e, he, _⟩ := table_of_present _ k hk
      rw [← count_pairs_eq] at hb
      exact List.ne_nil_of_mem (List.mem_flatten.2 ⟨b, hb, he⟩)
    rw [select_best_flatten]
    exact foldl_pick_first _ hne
  · intro i e he
    rw [count_pairs_eq] at he
    have := (table_of_inv (keys_of tokens)).entry i e he
    rw [← this.2.1, this.1]
    rfl
  · intro i
    rw [count_pairs_eq]
    exact table_of_order _ i

theorem best_pair_selection_witness :
    (2 ≤ (init abcabcxyxy).tokens.length ∧
        pair_occurrences (init abcabcxyxy).tokens 97 98 = 2 ∧
        pair_occurrences (init abcabcxyxy).tokens 98 99 = 2 ∧
        pair_occurrences (init abcabcxyxy).tokens 120 121 = 2) ∧
      (djb33_hash (pair_key 97 98) 6 = 3753942218 ∧
        djb33_hash (pair_key 98 99) 6 = 3753621604 ∧
        djb33_hash (pair_key 120 121) 6 = 3782513508) ∧
      (count_pairs (init abcabcxyxy).tokens).flatten =
        [{ key := 3753621604, value := pair_key 98 99, freq := 2 },
         { key := 3782513508, value := pair_key 120 121, freq := 2 },
         { key := 3782477508, value := pair_key 121 120, freq := 1 },
         { key := 3753723814, value := pair_key 99 120, freq := 1 },
         { key := 3753942218, value := pair_key 97 98, freq := 2 },
         { key := 3753727115, value := pair_key 99 97, freq := 1 }] ∧
      select_best (count_pairs (init abcabcxyxy).tokens) =
        some { key := 3753621604, value := pair_key 98 99, freq := 2 } ∧
      (step (init abcabcxyxy)).map State.merges =
        some [{ left := 98, right := 99, token := 256 }] ∧
      ∃ best pre post, select_best (count_pairs (init abcabcxyxy).tokens) = some best ∧
        (count_pairs (init abcabcxyxy).tokens).flatten = pre ++ best :: post ∧
        (∀ e ∈ pre, e.freq < best.freq) ∧ (∀ e ∈ post, e.freq ≤ best.freq) :=
  ⟨⟨by decide, by decide, by decide, by decide⟩, ⟨by decide, by decide, by decide⟩,
    by decide, (best_pair_selection (init abcabcxyxy).tokens).2.2.2.2.2.1, by decide,
    (best_pair_selection (init abcabcxyxy).tokens).2.1 (by decide)⟩

/-! ## Inputs too short for an id of 1000 -/

/-- On an input of at most 747 bytes the token count and the merge count
together never exceed the input length, and once a merge was made at least two
tokens more than merges fit into the input length. -/
theorem short_input_count (sb : List Byte) (hlen : sb.length ≤ 747) (n : Nat) (s : State)
    (h : iterate n (init sb) = some s) :
    StateInv s ∧ s.tokens.length + s.merges.length ≤ sb.length ∧
      (s.merges.length = 0 ∨ s.merges.length + 2 ≤ sb.length) := by
  induction n generalizing s with
  | zero =>
    simp only [iterate, Option.some.injEq] at h
    subst h
    exact ⟨init_inv sb, by simp [init], Or.inl rfl⟩
  | succ n ih =>
    rw [iterate_succ] at h
    cases h1 : iterate n (init sb) with
    | none => rw [h1] at h; simp at h
    | some s1 =>
      rw [h1] at h
      simp only [Option.some_bind] at h
      obtain ⟨inv, hsum, _⟩ := ih s1 h1
      have h3 := step_some_length s1 s h
      have hn := inv.next
      have hlt := step_length_lt s1 s inv (by omega) h
      have hm : s.merges.length = s1.merges.length + 1 := by
        obtain ⟨best, _, _, rfl⟩ := step_some s1 s h
        simp
      exact ⟨step_inv s1 s inv h, by omega, Or.inr (by omega)⟩

/-- C21, the claim as stated fails at the empty input: it has at most 745
bytes, training makes no merge on it, and no merge is not fewer merges than the
input has bytes. -/
theorem short_input_counterexample :
    ([] : List Byte).length ≤ 745 ∧ train 1 (init []) = some (init []) ∧
      ¬ ((init []).merges.length < ([] : List Byte).length) :=
  ⟨by decide, by decide, by decide⟩

/-- C21 as amended: for every non-empty input of at most 745 bytes, at every
point of training the number of merges is smaller than the number of input
bytes, every token id of the sequence and every id of a merge record lies in
`[0, 999]`, and the key the selection loop picks is the key of an adjacent pair
of the sequence, holds the number of occurrences of that pair, and is read back
by `atoi` as exactly that pair. -/
theorem short_input_ids (sb : List Byte) (hne : sb ≠ []) (hlen : sb.length ≤ 745)
    (n : Nat) (s : State) (h : iterate n (init sb) = some s) :
    s.merges.length < sb.length ∧
      (∀ t ∈ s.tokens, 0 ≤ t ∧ t ≤ 999) ∧
      (∀ m ∈ s.merges, (0 ≤ m.left ∧ m.left ≤ 999) ∧ (0 ≤ m.right ∧ m.right ≤ 999) ∧
        (256 ≤ m.token ∧ m.token ≤ 999)) ∧
      (∀ best, select_best (count_pairs s.tokens) = some best →
        ∃ a b, (a, b) ∈ pairs_of s.tokens ∧ best.value = pair_key a b ∧
          best.freq = pair_occurrences s.tokens a b ∧
          atoi (best.value.take 3) = a ∧ atoi ((best.value.drop 3).take 3) = b) := by
  obtain ⟨inv, _, hm⟩ := short_input_count sb (by omega) n s h
  have hpos : 0 < sb.length := List.length_pos.2 hne
  have hn := inv.next
  have htok : ∀ t ∈ s.tokens, 0 ≤ t ∧ t ≤ 999 := by
    intro t ht
    have := inv.tokens t ht
    omega
  refine ⟨by omega, htok, ?_, ?_⟩
  · intro m hmem
    obtain ⟨k, hk, rfl⟩ := List.getElem_of_mem hmem
    have := inv.record k hk
    omega
  · intro best hb
    obtain ⟨a, b, hab, hv, hc⟩ := best_pair s.tokens best hb
    have hmp := mem_of_mem_pairs _ _ hab
    have ha := htok a hmp.1
    have hb' := htok b hmp.2
    have hparse := parse_small a b ha.1 ha.2 hb'.1 hb'.2
    rw [← hv] at hparse
    rw [count_key_eq _ a b htok, ← pair_occurrences_eq] at hc
    exact ⟨a, b, hab, hv, hc, hparse.1, hparse.2⟩

theorem short_input_ids_witness :
    (ababab ≠ [] ∧ ababab.length ≤ 745 ∧ iterate 2 (init ababab) = some ababab_final) ∧
      ababab_final.merges.length < ababab.length ∧
      (∀ t ∈ ababab_final.tokens, 0 ≤ t ∧ t ≤ 999) :=
  ⟨⟨by decide, by decide, by decide⟩,
    (short_input_ids ababab (by decide) (by decide) 2 ababab_final (by decide)).1,
    (short_input_ids ababab (by decide) (by decide) 2 ababab_final (by decide)).2.1⟩

end StupidBpe
